import Mathlib

/-!
Verification of the similarity-matrix engine of the `harry` string-similarity
tool.  The definitions below are a shallow embedding of `src/hmatrix.c` and
`src/str.c`: C `int` arithmetic is modelled by `Int` (all quantities relevant
to the claims stay far below 2^31, and every division that occurs has
non-negative operands, where C truncating division and Lean's floor division
agree), C strings by `List Char` or `List Nat` (byte values), and the float
payload of the matrix by a type parameter `α` (values are stored and read back
verbatim, so their concrete representation never matters).
-/

namespace Harry

/-- A half-open index interval `[i, n)`; field names follow `range_t`. -/
structure Range where
  i : Int
  n : Int
deriving DecidableEq, Repr

/-- The matrix object `hmatrix_t`.  `values` models the backing store
`float *values` as a total map from packed indices to stored values;
`labels`/`srcs` are omitted here (they are modelled separately for
`hmatrix_init`, claim C10). -/
structure HMatrix (α : Type) where
  num : Int
  x : Range
  y : Range
  triangular : Bool
  size : Int
  values : Int → α

/-- The triangular packing formula shared by `hmatrix_set` and `hmatrix_get`
(hmatrix.c:242-248 and 269-275): order the two relative coordinates
(`i` from the smaller side, `j` from the larger side, the comparison being
`x - m->x.i > y - m->y.i`) and pack row-major with row length `rowlen`.
`set` passes `rowlen = m->x.n - m->x.i`, `get` passes `m->x.n - m->y.i`. -/
def tri_idx (rowlen a b : Int) : Int :=
  let i := if a > b then b else a
  let j := if a > b then a else b
  (j - i) + i * rowlen - i * (i - 1) / 2

/-- The packed index computed by `hmatrix_set` (hmatrix.c:238-255). -/
def hmatrix_set_idx (m : HMatrix α) (x y : Int) : Int :=
  if m.triangular then
    tri_idx (m.x.n - m.x.i) (x - m.x.i) (y - m.y.i)
  else
    (x - m.x.i) + (y - m.y.i) * (m.x.n - m.x.i)

/-- The packed index computed by `hmatrix_get` (hmatrix.c:265-282).  Identical
to `hmatrix_set_idx` except for the row-base term `m->x.n - m->y.i` where
`set` uses `m->x.n - m->x.i`. -/
def hmatrix_get_idx (m : HMatrix α) (x y : Int) : Int :=
  if m.triangular then
    tri_idx (m.x.n - m.y.i) (x - m.x.i) (y - m.y.i)
  else
    (x - m.x.i) + (y - m.y.i) * (m.x.n - m.x.i)

/-- `hmatrix_set` (hmatrix.c:238-255): store `f` at the packed index. -/
def hmatrix_set (m : HMatrix α) (x y : Int) (f : α) : HMatrix α :=
  { m with values := fun idx => if idx = hmatrix_set_idx m x y then f else m.values idx }

/-- `hmatrix_get` (hmatrix.c:265-282): read the value at the packed index. -/
def hmatrix_get (m : HMatrix α) (x y : Int) : α :=
  m.values (hmatrix_get_idx m x y)

/-- `hmatrix_alloc` (hmatrix.c:203-229): decide triangular vs rectangular
storage, set `size` and zero the backing store (`calloc`). -/
def hmatrix_alloc (m : HMatrix α) (zero : α) : HMatrix α :=
  let xl := m.x.n - m.x.i
  let yl := m.y.n - m.y.i
  if m.x.n = m.y.n ∧ m.x.i = m.y.i then
    { m with triangular := true, size := xl * (xl - 1) / 2 + xl, values := fun _ => zero }
  else
    { m with triangular := false, size := xl * yl, values := fun _ => zero }

/-- One iteration of the body of the compute loops (hmatrix.c:303-315):
skip the pair when triangular and `yi > xi`, otherwise evaluate the measure
and store the result.  `p = (xi, yi)` are the absolute coordinates. -/
def compute_step (measure : Int → Int → α) (acc : HMatrix α) (p : Int × Int) : HMatrix α :=
  if acc.triangular ∧ p.2 > p.1 then acc
  else hmatrix_set acc p.1 p.2 (measure p.1 p.2)

/-- `hmatrix_compute` (hmatrix.c:290-352): the collapsed double loop
`for i in [0, x.n-x.i) for j in [0, y.n-y.i)` with absolute indices
`xi = i + x.i`, `yi = j + y.i`.  The OpenMP-parallel writes of the source are
pairwise disjoint (proved below), so the sequential fold is an exact model.
The progress-bar/log bookkeeping does not touch the matrix and is omitted.
`measure` is the composition `(x, y) ↦ (float) measure(s[x], s[y])` of the C
measure function with the string batch; it is kept abstract. -/
def hmatrix_compute (m : HMatrix α) (measure : Int → Int → α) : HMatrix α :=
  (List.range (m.x.n - m.x.i).toNat).foldl (fun acc (i : Nat) =>
    (List.range (m.y.n - m.y.i).toNat).foldl (fun acc2 (j : Nat) =>
      compute_step measure acc2 ((i : Int) + m.x.i, (j : Int) + m.y.i)) acc) m

/-- Ghost companion of `hmatrix_compute`: the list of absolute coordinate
pairs `(xi, yi)` for which the loop body reaches the `measure` call, in loop
order (same loop structure, same skip condition). -/
def compute_evaluated (m : HMatrix α) : List (Int × Int) :=
  (List.range (m.x.n - m.x.i).toNat).foldl (fun l (i : Nat) =>
    (List.range (m.y.n - m.y.i).toNat).foldl (fun l2 (j : Nat) =>
      if m.triangular ∧ ((j : Int) + m.y.i) > ((i : Int) + m.x.i) then l2
      else l2 ++ [((i : Int) + m.x.i, (j : Int) + m.y.i)]) l) []

/-- Proof device: the iteration space of `hmatrix_compute` flattened to one
list, in loop order. -/
def all_pairs (m : HMatrix α) : List (Int × Int) :=
  (List.range (m.x.n - m.x.i).toNat).flatMap (fun (i : Nat) =>
    (List.range (m.y.n - m.y.i).toNat).map (fun (j : Nat) =>
      ((i : Int) + m.x.i, (j : Int) + m.y.i)))

/-- The exact integer ceiling `⌈a/b⌉` — the `height` that the spec's formula
`height = ⌈(y.n − y.i)/blocks⌉` prescribes.  The source instead computes
`ceil((m->y.n - m->y.i) / (float) blocks)` (hmatrix.c:153) in single
precision, which is modelled faithfully by `fl_ceil_div` below; the two agree
exactly when the y-height is at most `2^24` (`fl_ceil_div_exact`) and diverge
above it, where the int→float conversion rounds. -/
def ceil_div (a b : Int) : Int := (a + b - 1) / b

/-- Round a rational to an integer, halves to even — the IEEE-754
round-to-nearest-even rule applied to a scaled significand. -/
def rhe (s : ℚ) : ℚ :=
  if s - ⌊s⌋ < 1/2 then (⌊s⌋ : ℚ)
  else if 1/2 < s - ⌊s⌋ then ((⌊s⌋ + 1 : ℤ) : ℚ)
  else if ⌊s⌋ % 2 = 0 then (⌊s⌋ : ℚ) else ((⌊s⌋ + 1 : ℤ) : ℚ)

/-- Round a positive rational to the nearest `binary32` value (24-bit
significand, round half to even), returned as a rational: scale into
`[2^23, 2^24)` using the base-2 logarithm, round the significand, scale
back.  Normal range only — overflow and subnormals are far outside the
values a split ever computes. -/
def rnd32pos (q : ℚ) : ℚ :=
  rhe (q * 2 ^ (23 - Int.log 2 q)) * 2 ^ (Int.log 2 q - 23)

/-- Round a rational to the nearest `binary32` value. -/
def rnd32 (q : ℚ) : ℚ :=
  if q < 0 then -rnd32pos (-q) else rnd32pos q

/-- `ceil((m->y.n - m->y.i) / (float) blocks)` (hmatrix.c:153), modelled
faithfully: both int operands are converted to `float` (binary32), the
division is performed in single precision (`FLT_EVAL_METHOD == 0`, the
x86-64 SSE default), and `ceil` on the exact `double` promotion is exact.
For `blocks = 0` the C expression divides by zero; the model returns the
junk value `0` there, which the `blocks <= 0` fatal check makes
unreachable. -/
def fl_ceil_div (a b : Int) : Int :=
  ⌈rnd32 (rnd32 (a : ℚ) / rnd32 (b : ℚ))⌉

/-- `hmatrix_split` (hmatrix.c:139-173) after `sscanf("%d:%d")` has produced
`blocks` and `index`.  `none` models a `fatal(...)` exit; otherwise the
y-range is replaced as in the source.  The height is the single-precision
float ceiling the source computes. -/
def hmatrix_split (m : HMatrix α) (blocks index : Int) : Option (HMatrix α) :=
  let yl := m.y.n - m.y.i
  let height := fl_ceil_div yl blocks
  if blocks ≤ 0 ∨ blocks > yl then none
  else if height ≤ 0 ∨ height > yl then none
  else if index < 0 ∨ index > blocks - 1 then none
  else
    let yi := m.y.i + index * height
    some { m with y := ⟨yi, if m.y.n > yi + height then yi + height else m.y.n⟩ }

/-! ### Packed-triangle arithmetic helpers

`rowBase xl i` is the offset of row `i` in a packed lower triangle with
longest row `xl`; it equals the `i·xl − i·(i−1)/2` term of the source
formula (proved below).  `triIdxN` is the packed index on ordered relative
coordinates `i ≤ j`.  These ℕ-level duplicates of `tri_idx` exist only to
drive the induction proofs; the bridge lemmas connect them to the source
formula. -/

/-- Offset of row `i` in a packed lower triangle with row length `xl`. -/
def rowBase (xl : Nat) : Nat → Nat
  | 0 => 0
  | i + 1 => rowBase xl i + (xl - i)

/-- Packed index of ordered relative coordinates `i ≤ j`. -/
def triIdxN (xl i j : Nat) : Nat := (j - i) + rowBase xl i

/-! ### Range parsing (`parse_range`, hmatrix.c:79-131) -/

/-- `isspace` on the characters relevant to `strtol`'s leading-space skip. -/
def isSpaceC (c : Char) : Bool := c = ' ' ∨ (9 ≤ c.toNat ∧ c.toNat ≤ 13)

/-- A decimal digit. -/
def isDigitC (c : Char) : Bool := '0' ≤ c ∧ c ≤ '9'

/-- Consume a maximal digit run, accumulating the decimal value; returns the
value together with the unconsumed suffix (the `endptr` of `strtol`). -/
def digits_val : List Char → Int → Int × List Char
  | [], acc => (acc, [])
  | c :: rest, acc =>
    if isDigitC c then digits_val rest (acc * 10 + ((c.toNat : Int) - 48))
    else (acc, c :: rest)

/-- `strtol(s, &end, 10)`: skip leading whitespace, an optional sign, then
digits.  Returns `(value, end)`; when no digits are consumed the value is `0`
and `end` is the original string, as specified for `strtol`.  (The `long`
overflow clamp is not modelled; the claims stay far below `LONG_MAX`.) -/
def strtol (s : List Char) : Int × List Char :=
  let t := s.dropWhile isSpaceC
  match t with
  | '-' :: r =>
    match r with
    | c :: _ => if isDigitC c then (let p := digits_val r 0; (-p.1, p.2)) else (0, s)
    | [] => (0, s)
  | '+' :: r =>
    match r with
    | c :: _ => if isDigitC c then digits_val r 0 else (0, s)
    | [] => (0, s)
  | c :: _ => if isDigitC c then digits_val t 0 else (0, s)
  | [] => (0, s)

/-- One side of a range spec (hmatrix.c:102-116): an empty side takes the
default (`0` on the left, `n` on the right); a fully consumed `strtol` parse
takes the parsed value; anything else emits an error and leaves the previous
value in place.  Returns `(new value, error emitted)`. -/
def parse_side (s : List Char) (dflt old : Int) : Int × Bool :=
  if s = [] then (dflt, false)
  else
    let p := strtol s
    if p.2 = [] then (p.1, false) else (old, true)

/-- Split a string at the first `':'` (the `strchr`/`'\0'`-split of
hmatrix.c:92-99); `none` when there is no colon. -/
def splitColon : List Char → Option (List Char × List Char)
  | [] => none
  | c :: r =>
    if c = ':' then some ([], r)
    else (splitColon r).map (fun p => (c :: p.1, p.2))

/-- The range assembled from the two sides before the sanity check
(hmatrix.c:102-121), including the negative-end adjustment `r.n = n + r.n`.
Returns the candidate range together with the parse-error flag. -/
def parse_range_pre (r : Range) (ls rs : List Char) (n : Int) : Range × Bool :=
  let li := parse_side ls 0 r.i
  let rn := parse_side rs n r.n
  let n2 := if rn.1 < 0 then n + rn.1 else rn.1
  (⟨li.1, n2⟩, li.2 || rn.2)

/-- The sanity condition of hmatrix.c:124: the candidate range is rejected
(reverting to the full range `0:n`) when it holds. -/
def range_bad (r : Range) (n : Int) : Prop :=
  r.n < 0 ∨ r.i < 0 ∨ r.n > n ∨ r.i > n - 1 ∨ r.i ≥ r.n

instance (r : Range) (n : Int) : Decidable (range_bad r n) := by
  unfold range_bad; infer_instance

/-- `parse_range` (hmatrix.c:79-131).  Returns the resulting range together
with a flag recording whether any `error(...)` was emitted. -/
def parse_range (r : Range) (str : List Char) (n : Int) : Range × Bool :=
  if str = [] then (r, false)
  else
    match splitColon str with
    | none => (r, true)
    | some (ls, rs) =>
      let pre := parse_range_pre r ls rs n
      if range_bad pre.1 n then (⟨0, n⟩, true)
      else (pre.1, pre.2)

/-! ### Delimiter table and tokenization (`str.c`) -/

/-- The global `delim[256]` table: either the uninitialized sentinel
(`delim[0] == DELIM_NOT_INIT`) or a set of flagged byte values. -/
inductive DelimTable
  | notInit
  | table (flags : Nat → Bool)

/-- Hex digit value, as accepted by `sscanf("%x")`. -/
def hexVal : Char → Option Nat
  | c =>
    if '0' ≤ c ∧ c ≤ '9' then some (c.toNat - 48)
    else if 'a' ≤ c ∧ c ≤ 'f' then some (c.toNat - 87)
    else if 'A' ≤ c ∧ c ≤ 'F' then some (c.toNat - 70)
    else none

/-- The scan loop of `str_delim_set` (str.c:98-112), returning the list of
byte values flagged, in order.  A literal byte flags itself; `'%'` with two
remaining characters builds `"0xHH"` for `sscanf("%x")`, which consumes the
maximal hex prefix — two hex digits flag `16*a+b`, a hex digit followed by a
non-hex character flags just `a`; `'%'` as the very last character breaks out
of the loop; `'%'` followed by exactly one character `H` builds `"0xH"` (the
fourth buffer byte stays `'\0'`), flagging the value of the single digit.
`none` models the unspecified outcome when `sscanf` finds no hex digit at all
(`j` is then used uninitialized by the source). -/
def delim_scan : List Char → Option (List Nat)
  | [] => some []
  | c :: rest =>
    if c ≠ '%' then (delim_scan rest).map (fun l => c.toNat :: l)
    else
      match rest with
      | [] => some []
      | c1 :: rest1 =>
        match hexVal c1 with
        | none => none
        | some a =>
          match rest1 with
          | [] => some [a]
          | c2 :: rest2 =>
            match hexVal c2 with
            | some b => (delim_scan rest2).map (fun l => (16 * a + b) :: l)
            | none => (delim_scan rest2).map (fun l => a :: l)

/-- `str_delim_set` (str.c:87-113): an empty spec resets the table, otherwise
the table is zeroed and the scan flags its bytes.  `none` propagates the
unspecified `sscanf`-failure case of `delim_scan`. -/
def str_delim_set (s : List Char) : Option DelimTable :=
  if s = [] then some .notInit
  else (delim_scan s).map (fun l => .table (fun b => b ∈ l))

/-- `str_delim_reset` (str.c:120-123). -/
def str_delim_reset : DelimTable := .notInit

/-- Whether a byte is flagged in the result of `str_delim_set`. -/
def delim_flagged (t : Option DelimTable) (b : Nat) : Bool :=
  match t with
  | some (.table f) => f b
  | _ => false

/-- Refinement-side definition, modelled from the spec's words (as amended):
a delimiter spec is well formed when every `%` escape consists of two hex
digits, or is a single hex digit at the end of the string, or is a bare `%`
at the end of the string.  (The source additionally accepts a hex digit
followed by a non-hex character, and behaves unspecified when `%` is followed
by a non-hex character; both are outside the claim.) -/
def spec_wf : List Char → Bool
  | [] => true
  | ['%'] => true
  | ['%', c1] => (hexVal c1).isSome
  | '%' :: c1 :: c2 :: rest2 => (hexVal c1).isSome && (hexVal c2).isSome && spec_wf rest2
  | _ :: rest => spec_wf rest

/-- Refinement-side definition, modelled from the spec's words (as amended):
the byte values a well-formed delimiter spec denotes — every literal byte
outside an escape denotes itself, `%HH` denotes `16·a+b`, a trailing `%H`
with a single hex digit denotes that digit's value, and a trailing `%`
denotes nothing. -/
def spec_denoted : List Char → List Nat
  | [] => []
  | ['%'] => []
  | ['%', c1] => [(hexVal c1).getD 0]
  | '%' :: c1 :: c2 :: rest2 =>
    (16 * (hexVal c1).getD 0 + (hexVal c2).getD 0) :: spec_denoted rest2
  | c :: rest => c.toNat :: spec_denoted rest

/-- The canonical delimiter of `str_symbolize` (str.c:144): the lowest
flagged byte value. -/
def find_dlm (delim : Nat → Bool) : Nat :=
  ((List.range 256).find? delim).getD 256

/-- One step of the delimiter-collapse loop of `str_symbolize`
(str.c:147-155).  `out` is the prefix written so far (the first `j` bytes);
a delimiter byte is dropped when nothing was written yet or the last written
byte is itself a delimiter, and otherwise written as the canonical delimiter. -/
def collapse_step (delim : Nat → Bool) (dlm : Nat) (out : List Nat) (c : Nat) : List Nat :=
  if delim c then
    match out.getLast? with
    | none => out
    | some p => if delim p then out else out ++ [dlm]
  else out ++ [c]

/-- The delimiter-collapse pass of `str_symbolize` (str.c:147-155). -/
def collapse (delim : Nat → Bool) (dlm : Nat) (s : List Nat) : List Nat :=
  s.foldl (collapse_step delim dlm) []

/-- The word-extraction pass of `str_symbolize` (str.c:158-165): split the
normalized buffer at canonical delimiters and at the end of the buffer,
emitting each non-empty run.  `cur` is the run accumulated since `wstart`. -/
def extract_words (dlm : Nat) : List Nat → List Nat → List (List Nat)
  | cur, [] => if cur = [] then [] else [cur]
  | cur, c :: rest =>
    if c = dlm then
      if cur = [] then extract_words dlm [] rest
      else cur :: extract_words dlm [] rest
    else extract_words dlm (cur ++ [c]) rest

/-- `str_symbolize` (str.c:131-175) on a byte string, parameterized by the
delimiter table and by the word hash `hash_str` (MurmurHash64B, kept
abstract): collapse delimiter runs, then hash each extracted word. -/
def str_symbolize (delim : Nat → Bool) (hash : List Nat → Nat) (s : List Nat) : List Nat :=
  (extract_words (find_dlm delim) [] (collapse delim (find_dlm delim) s)).map hash

/-! ### Pair hashing (`str_hash2`, str.c:219-236) -/

/-- The `type` tag of `str_t`. -/
inductive StrType
  | char
  | sym
deriving DecidableEq, Repr

/-- The parts of `str_t` relevant to hashing: the tag and the payload
(`none` models a NULL `str.c`/`str.s` pointer). -/
structure StrT where
  type : StrType
  payload : Option (List Nat)

/-- Result of `str_hash2`: the hash value and whether the
`warning(...)` branch was taken. -/
structure Hash2Result where
  val : Nat
  warned : Bool
deriving DecidableEq, Repr

/-- `str_hash2` (str.c:219-236), parameterized by the two payload hashes
(`MurmurHash64B` over `char`- resp. `sym_t`-sized buffers, kept abstract).
Matching tags with present payloads XOR the two hashes; anything else warns
and returns the sentinel `0`. -/
def str_hash2 (Hc Hs : List Nat → Nat) (x y : StrT) : Hash2Result :=
  match x.type, y.type, x.payload, y.payload with
  | .char, .char, some xc, some yc => ⟨Nat.xor (Hc xc) (Hc yc), false⟩
  | .sym, .sym, some xs, some ys => ⟨Nat.xor (Hs xs) (Hs ys), false⟩
  | _, _, _, _ => ⟨0, true⟩

/-! ### Matrix initialization (`hmatrix_init`, hmatrix.c:36-70) -/

/-- The object built by `hmatrix_init`; `labels`/`srcs` are `none` when the
corresponding `calloc` failed.  `lab` is the label type (`float` in C). -/
structure HMatrixInit (lab : Type) where
  num : Int
  x : Range
  y : Range
  triangular : Bool
  labels : Option (List lab)
  srcs : Option (List (Option (List Nat)))

/-- `hmatrix_init` (hmatrix.c:36-70) with an allocation oracle: `mOk`,
`labelsOk`, `srcsOk` tell whether the three allocations succeed.  `none`
models `return NULL`.  When the labels or srcs `calloc` fails the source
emits a (non-fatal) `error(...)` and nevertheless executes `return m`,
handing the partially-initialized object back: that branch is modelled
faithfully here. -/
def hmatrix_init (mOk labelsOk srcsOk : Bool) (zero : lab)
    (s : List (lab × Option (List Nat))) : Option (HMatrixInit lab) :=
  if ¬mOk then none
  else
    let n : Int := s.length
    let labels : Option (List lab) :=
      if labelsOk then some (List.replicate s.length zero) else none
    let srcs : Option (List (Option (List Nat))) :=
      if srcsOk then some (List.replicate s.length none) else none
    if srcs.isNone || labels.isNone then
      some ⟨n, ⟨0, n⟩, ⟨0, n⟩, true, labels, srcs⟩
    else
      some ⟨n, ⟨0, n⟩, ⟨0, n⟩, true, some (s.map Prod.fst), some (s.map Prod.snd)⟩

/-! ## Helper lemmas: packed-triangle arithmetic -/

theorem rowBase_succ (xl i : Nat) : rowBase xl (i + 1) = rowBase xl i + (xl - i) := rfl

theorem rowBase_mono (xl : Nat) {i k : Nat} (h : i ≤ k) : rowBase xl i ≤ rowBase xl k := by
  induction k with
  | zero => simp [Nat.le_zero.mp h]
  | succ k ih =>
    rcases Nat.lt_or_ge i (k + 1) with h' | h'
    · have := ih (by omega)
      rw [rowBase_succ]
      omega
    · have : i = k + 1 := by omega
      subst this
      exact Nat.le_refl _

theorem rowBase_le_triIdxN (xl i j : Nat) : rowBase xl i ≤ triIdxN xl i j := by
  unfold triIdxN
  omega

theorem triIdxN_lt_rowBase_succ (xl i j : Nat) (hij : i ≤ j) (hj : j < xl) :
    triIdxN xl i j < rowBase xl (i + 1) := by
  unfold triIdxN
  rw [rowBase_succ]
  omega

theorem triIdxN_lt_size (xl i j : Nat) (hij : i ≤ j) (hj : j < xl) :
    triIdxN xl i j < rowBase xl xl := by
  have h1 := triIdxN_lt_rowBase_succ xl i j hij hj
  have h2 := rowBase_mono xl (show i + 1 ≤ xl by omega)
  omega

theorem triIdxN_inj (xl i₁ j₁ i₂ j₂ : Nat) (h₁ : i₁ ≤ j₁) (hj₁ : j₁ < xl)
    (h₂ : i₂ ≤ j₂) (hj₂ : j₂ < xl) (heq : triIdxN xl i₁ j₁ = triIdxN xl i₂ j₂) :
    i₁ = i₂ ∧ j₁ = j₂ := by
  have hi : i₁ = i₂ := by
    by_contra hne
    rcases Nat.lt_or_ge i₁ i₂ with h | h
    · have ha := triIdxN_lt_rowBase_succ xl i₁ j₁ h₁ hj₁
      have hb := rowBase_mono xl (show i₁ + 1 ≤ i₂ by omega)
      have hc := rowBase_le_triIdxN xl i₂ j₂
      omega
    · have hlt : i₂ < i₁ := by omega
      have ha := triIdxN_lt_rowBase_succ xl i₂ j₂ h₂ hj₂
      have hb := rowBase_mono xl (show i₂ + 1 ≤ i₁ by omega)
      have hc := rowBase_le_triIdxN xl i₁ j₁
      omega
  subst hi
  refine ⟨rfl, ?_⟩
  unfold triIdxN at heq
  omega

theorem rowBase_shift (xl : Nat) : ∀ i : Nat, rowBase (xl + 1) (i + 1) = (xl + 1) + rowBase xl i := by
  intro i
  induction i with
  | zero => simp [rowBase]
  | succ i ih =>
    rw [rowBase_succ, ih, rowBase_succ]
    omega

theorem triIdxN_surj : ∀ (xl d : Nat), d < rowBase xl xl →
    ∃ i j, i ≤ j ∧ j < xl ∧ triIdxN xl i j = d := by
  intro xl
  induction xl with
  | zero => intro d h; simp [rowBase] at h
  | succ xl ih =>
    intro d h
    rcases Nat.lt_or_ge d (xl + 1) with h' | h'
    · refine ⟨0, d, by omega, by omega, ?_⟩
      unfold triIdxN
      simp [rowBase]
    · have hsize : rowBase (xl + 1) (xl + 1) = (xl + 1) + rowBase xl xl := rowBase_shift xl xl
      obtain ⟨i, j, hij, hj, hidx⟩ := ih (d - (xl + 1)) (by omega)
      refine ⟨i + 1, j + 1, by omega, by omega, ?_⟩
      unfold triIdxN at *
      rw [rowBase_shift xl i]
      omega

theorem rowBase_int_identity (xl : Nat) : ∀ i : Nat, i ≤ xl →
    2 * (rowBase xl i : Int) = 2 * i * xl - i * (i - 1) := by
  intro i
  induction i with
  | zero => simp [rowBase]
  | succ i ih =>
    intro h
    have h' : i ≤ xl := by omega
    have hih := ih h'
    rw [rowBase_succ]
    push_cast [Nat.cast_sub h']
    nlinarith [hih]

theorem tri_div_exact (i : Int) : 2 * (i * (i - 1) / 2) = i * (i - 1) := by
  obtain ⟨r, hr⟩ := Int.even_mul_succ_self (i - 1)
  have h1 : i * (i - 1) = 2 * r := by
    have : (i - 1) * (i - 1 + 1) = r + r := hr
    nlinarith [this]
  rw [h1, Int.mul_ediv_cancel_left r (by norm_num)]

theorem tri_term_eq (xl i : Nat) (h : i ≤ xl) :
    (i : Int) * xl - (i : Int) * ((i : Int) - 1) / 2 = rowBase xl i := by
  have h2 := tri_div_exact (i : Int)
  have h3 := rowBase_int_identity xl i h
  linarith

theorem tri_idx_ord (xl i j : Int) (h0 : 0 ≤ i) (hij : i ≤ j) (hj : j < xl) :
    (j - i) + i * xl - i * (i - 1) / 2 = triIdxN xl.toNat i.toNat j.toNat := by
  have hxl : (xl.toNat : Int) = xl := Int.toNat_of_nonneg (by omega)
  have hi : (i.toNat : Int) = i := Int.toNat_of_nonneg h0
  have hj' : (j.toNat : Int) = j := Int.toNat_of_nonneg (by omega)
  have hterm := tri_term_eq xl.toNat i.toNat (by omega)
  rw [hi, hxl] at hterm
  unfold triIdxN
  push_cast [Nat.cast_sub (show i.toNat ≤ j.toNat by omega)]
  linarith

theorem tri_idx_eq_ord (L a b : Int) (hab : a ≤ b) : tri_idx L a b = (b - a) + a * L - a * (a - 1) / 2 := by
  unfold tri_idx
  rcases lt_or_eq_of_le hab with h | h
  · simp [not_lt.mpr (le_of_lt h), if_neg (not_lt.mpr hab)]
  · subst h
    simp

theorem tri_idx_symm (L a b : Int) : tri_idx L a b = tri_idx L b a := by
  unfold tri_idx
  rcases lt_trichotomy a b with h | h | h
  · simp [if_pos h, if_neg (not_lt.mpr (le_of_lt h))]
  · subst h
    simp
  · simp [if_pos h, if_neg (not_lt.mpr (le_of_lt h))]

theorem tri_idx_eq_triIdxN (xl a b : Int) (ha : 0 ≤ a) (hb : 0 ≤ b)
    (ha' : a < xl) (hb' : b < xl) :
    tri_idx xl a b = triIdxN xl.toNat (min a b).toNat (max a b).toNat := by
  rcases le_total a b with h | h
  · rw [tri_idx_eq_ord xl a b h, min_eq_left h, max_eq_right h]
    exact tri_idx_ord xl a b ha h hb'
  · rw [tri_idx_symm, tri_idx_eq_ord xl b a h, min_eq_right h, max_eq_left h]
    exact tri_idx_ord xl b a hb h ha'

theorem tri_size_eq (xl : Int) (h : 0 ≤ xl) :
    xl * (xl - 1) / 2 + xl = (rowBase xl.toNat xl.toNat : Int) := by
  have hterm := tri_term_eq xl.toNat xl.toNat (le_refl _)
  rw [Int.toNat_of_nonneg h] at hterm
  have h2 := tri_div_exact xl
  nlinarith [hterm, h2]

theorem tri_size_gauss (xl : Int) :
    xl * (xl - 1) / 2 + xl = xl * (xl + 1) / 2 := by
  have h1 := tri_div_exact xl
  have h2 := tri_div_exact (xl + 1)
  have : (xl + 1) * (xl + 1 - 1) = xl * (xl + 1) := by ring
  rw [this] at h2
  linarith

/-! ## Helper lemmas: rectangular packing -/

theorem rect_idx_nonneg (xl a b : Int) (ha : 0 ≤ a) (hb : 0 ≤ b) (hxl : 0 ≤ xl) :
    0 ≤ a + b * xl := by
  have : 0 ≤ b * xl := mul_nonneg hb hxl
  linarith

theorem rect_idx_lt (xl yl a b : Int) (ha' : a < xl) (hb : 0 ≤ b) (hb' : b < yl)
    (hxl : 0 ≤ xl) :
    a + b * xl < xl * yl := by
  have h1 : b * xl ≤ (yl - 1) * xl := mul_le_mul_of_nonneg_right (by omega) hxl
  nlinarith [h1]

theorem rect_idx_inj (xl a₁ b₁ a₂ b₂ : Int) (ha₁ : 0 ≤ a₁) (h1 : a₁ < xl)
    (ha₂ : 0 ≤ a₂) (h2 : a₂ < xl) (heq : a₁ + b₁ * xl = a₂ + b₂ * xl) :
    a₁ = a₂ ∧ b₁ = b₂ := by
  have hb : b₁ = b₂ := by
    rcases lt_trichotomy b₁ b₂ with h | h | h
    · have hm : (b₁ + 1) * xl ≤ b₂ * xl := mul_le_mul_of_nonneg_right (by omega) (by omega)
      nlinarith [hm]
    · exact h
    · have hm : (b₂ + 1) * xl ≤ b₁ * xl := mul_le_mul_of_nonneg_right (by omega) (by omega)
      nlinarith [hm]
  subst hb
  constructor
  · linarith
  · rfl

theorem rect_idx_surj (xl yl d : Int) (hxl : 0 < xl) (hd : 0 ≤ d) (hd' : d < xl * yl) :
    ∃ a b, 0 ≤ a ∧ a < xl ∧ 0 ≤ b ∧ b < yl ∧ a + b * xl = d := by
  have hmod := Int.emod_add_ediv d xl
  have hmn := Int.emod_nonneg d (show xl ≠ 0 by omega)
  have hml := Int.emod_lt_of_pos d hxl
  refine ⟨d % xl, d / xl, hmn, hml, Int.ediv_nonneg hd (le_of_lt hxl), ?_, by linarith⟩
  by_contra h
  push_neg at h
  have : xl * yl ≤ xl * (d / xl) := mul_le_mul_of_nonneg_left h (by omega)
  linarith

theorem tri_idx_bounds (xl a b : Int) (ha : 0 ≤ a) (ha' : a < xl) (hb : 0 ≤ b) (hb' : b < xl) :
    0 ≤ tri_idx xl a b ∧ tri_idx xl a b < xl * (xl - 1) / 2 + xl := by
  rw [tri_idx_eq_triIdxN xl a b ha hb ha' hb', tri_size_eq xl (by omega)]
  constructor
  · exact_mod_cast Nat.zero_le _
  · exact_mod_cast triIdxN_lt_size xl.toNat (min a b).toNat (max a b).toNat (by omega) (by omega)

theorem tri_idx_inj_abs (xl a₁ b₁ a₂ b₂ : Int)
    (ha₁ : 0 ≤ a₁) (ha₁' : a₁ < xl) (hb₁ : 0 ≤ b₁) (hb₁' : b₁ < xl)
    (ha₂ : 0 ≤ a₂) (ha₂' : a₂ < xl) (hb₂ : 0 ≤ b₂) (hb₂' : b₂ < xl)
    (heq : tri_idx xl a₁ b₁ = tri_idx xl a₂ b₂) :
    (a₁ = a₂ ∧ b₁ = b₂) ∨ (a₁ = b₂ ∧ b₁ = a₂) := by
  rw [tri_idx_eq_triIdxN xl a₁ b₁ ha₁ hb₁ ha₁' hb₁',
      tri_idx_eq_triIdxN xl a₂ b₂ ha₂ hb₂ ha₂' hb₂'] at heq
  have heqN : triIdxN xl.toNat (min a₁ b₁).toNat (max a₁ b₁).toNat =
      triIdxN xl.toNat (min a₂ b₂).toNat (max a₂ b₂).toNat := by exact_mod_cast heq
  obtain ⟨h1, h2⟩ := triIdxN_inj xl.toNat _ _ _ _
    (by omega) (by omega) (by omega) (by omega) heqN
  omega

theorem tri_idx_surj_abs (xl d : Int) (hxl : 0 < xl) (hd : 0 ≤ d)
    (hd' : d < xl * (xl - 1) / 2 + xl) :
    ∃ a b, 0 ≤ a ∧ a < xl ∧ 0 ≤ b ∧ b < xl ∧ a ≤ b ∧ tri_idx xl a b = d := by
  rw [tri_size_eq xl (by omega)] at hd'
  have hdN : d.toNat < rowBase xl.toNat xl.toNat := by omega
  obtain ⟨i, j, hij, hj, hidx⟩ := triIdxN_surj xl.toNat d.toNat hdN
  refine ⟨(i : Int), (j : Int), by omega, by omega, by omega, by omega, by omega, ?_⟩
  rw [tri_idx_eq_triIdxN xl (i : Int) (j : Int) (by omega) (by omega) (by omega) (by omega)]
  have hmin : (min (i : Int) (j : Int)).toNat = i := by omega
  have hmax : (max (i : Int) (j : Int)).toNat = j := by omega
  rw [hmin, hmax, hidx]
  omega

/-! ## Claim C1 -/

/-- Claim C1: for every matrix in triangular mode (where, as established by
`hmatrix_alloc`, the x and y ranges coincide) and all in-range coordinates
`x, y`, storing with `set(x, y, v)` and reading `get(y, x)` returns `v`, and
`hmatrix_set` and `hmatrix_get` compute the identical packed index for every
coordinate pair, despite `get`'s row-base term using `m->x.n - m->y.i` where
`set` uses `m->x.n - m->x.i`. -/
theorem C1_triangular_set_get_roundtrip (α : Type) (m : HMatrix α) (v : α) (x y : Int)
    (htri : m.triangular = true) (hii : m.x.i = m.y.i) (hnn : m.x.n = m.y.n)
    (hx1 : m.x.i ≤ x) (hx2 : x < m.x.n) (hy1 : m.y.i ≤ y) (hy2 : y < m.y.n) :
    hmatrix_get (hmatrix_set m x y v) y x = v ∧
    (∀ x' y', hmatrix_get_idx m x' y' = hmatrix_set_idx m x' y') := by
  have hsym : tri_idx (m.x.n - m.x.i) (y - m.x.i) (x - m.x.i) =
      tri_idx (m.x.n - m.x.i) (x - m.x.i) (y - m.x.i) := tri_idx_symm _ _ _
  constructor
  · simp [hmatrix_get, hmatrix_set, hmatrix_get_idx, hmatrix_set_idx, htri, ← hii, hsym]
  · intro x' y'
    simp [hmatrix_get_idx, hmatrix_set_idx, htri, ← hii]

/-- Witness for C1 at a concrete triangular 3×3 matrix with `x = 2`, `y = 1`,
`v = 7`. -/
theorem C1_triangular_set_get_roundtrip_witness :
    hmatrix_get (hmatrix_set (⟨3, ⟨0, 3⟩, ⟨0, 3⟩, true, 6, fun _ => 0⟩ : HMatrix Int) 2 1 7) 1 2 = 7 :=
  (C1_triangular_set_get_roundtrip Int ⟨3, ⟨0, 3⟩, ⟨0, 3⟩, true, 6, fun _ => 0⟩ 7 2 1
    rfl rfl rfl (by norm_num) (by norm_num) (by norm_num) (by norm_num)).1

/-! ## Claim C2 -/

/-- Claim C2: after `hmatrix_alloc`, the stored size is `xl·(xl+1)/2` when the
x and y ranges coincide (triangular) and `(x.n−x.i)·(y.n−y.i)` otherwise, and
the coordinate-to-index mapping of `hmatrix_set` sends every coordinate of the
active rectangle into `[0, size)`, is injective (rectangular) resp. injective
up to swapping the two coordinates (triangular), and reaches every index in
`[0, size)`. -/
theorem C2_alloc_size_and_packing_bijection (α : Type) (m m' : HMatrix α) (zero : α)
    (hm' : m' = hmatrix_alloc m zero)
    (hx : m.x.i < m.x.n) (hy : m.y.i < m.y.n) :
    ((m.x.n = m.y.n ∧ m.x.i = m.y.i) →
        m'.triangular = true ∧
        m'.size = (m.x.n - m.x.i) * ((m.x.n - m.x.i) + 1) / 2) ∧
    (¬(m.x.n = m.y.n ∧ m.x.i = m.y.i) →
        m'.triangular = false ∧
        m'.size = (m.x.n - m.x.i) * (m.y.n - m.y.i)) ∧
    (∀ x y, m.x.i ≤ x → x < m.x.n → m.y.i ≤ y → y < m.y.n →
        0 ≤ hmatrix_set_idx m' x y ∧ hmatrix_set_idx m' x y < m'.size) ∧
    (∀ x₁ y₁ x₂ y₂, m.x.i ≤ x₁ → x₁ < m.x.n → m.y.i ≤ y₁ → y₁ < m.y.n →
        m.x.i ≤ x₂ → x₂ < m.x.n → m.y.i ≤ y₂ → y₂ < m.y.n →
        hmatrix_set_idx m' x₁ y₁ = hmatrix_set_idx m' x₂ y₂ →
        (x₁ = x₂ ∧ y₁ = y₂) ∨ (m'.triangular = true ∧ x₁ = y₂ ∧ y₁ = x₂)) ∧
    (∀ d, 0 ≤ d → d < m'.size →
        ∃ x y, m.x.i ≤ x ∧ x < m.x.n ∧ m.y.i ≤ y ∧ y < m.y.n ∧
          hmatrix_set_idx m' x y = d) := by
  subst hm'
  by_cases h : m.x.n = m.y.n ∧ m.x.i = m.y.i
  · obtain ⟨hn, hi⟩ := h
    have htri : (hmatrix_alloc m zero).triangular = true := by
      simp [hmatrix_alloc, hn, hi]
    have hsz : (hmatrix_alloc m zero).size =
        (m.x.n - m.x.i) * ((m.x.n - m.x.i) - 1) / 2 + (m.x.n - m.x.i) := by
      simp [hmatrix_alloc, hn, hi]
    have hfx : (hmatrix_alloc m zero).x = m.x := by simp [hmatrix_alloc, hn, hi]
    have hfy : (hmatrix_alloc m zero).y = m.y := by simp [hmatrix_alloc, hn, hi]
    have hidx : ∀ x y, hmatrix_set_idx (hmatrix_alloc m zero) x y =
        tri_idx (m.x.n - m.x.i) (x - m.x.i) (y - m.x.i) := by
      intro x y
      rw [hmatrix_set_idx, htri, if_pos rfl, hfx, hfy, ← hi]
    refine ⟨fun _ => ⟨htri, ?_⟩, fun hc => absurd ⟨hn, hi⟩ hc, ?_, ?_, ?_⟩
    · rw [hsz, tri_size_gauss]
    · intro x y hx1 hx2 hy1 hy2
      rw [hidx, hsz]
      exact tri_idx_bounds (m.x.n - m.x.i) (x - m.x.i) (y - m.x.i)
        (by omega) (by omega) (by omega) (by omega)
    · intro x₁ y₁ x₂ y₂ h1 h2 h3 h4 h5 h6 h7 h8 heq
      rw [hidx, hidx] at heq
      have := tri_idx_inj_abs (m.x.n - m.x.i) (x₁ - m.x.i) (y₁ - m.x.i)
        (x₂ - m.x.i) (y₂ - m.x.i)
        (by omega) (by omega) (by omega) (by omega)
        (by omega) (by omega) (by omega) (by omega) heq
      rcases this with ⟨e1, e2⟩ | ⟨e1, e2⟩
      · exact Or.inl ⟨by omega, by omega⟩
      · exact Or.inr ⟨htri, by omega, by omega⟩
    · intro d hd hd'
      rw [hsz] at hd'
      obtain ⟨a, b, ha, ha', hb, hb', _, hab⟩ :=
        tri_idx_surj_abs (m.x.n - m.x.i) d (by omega) hd hd'
      refine ⟨m.x.i + a, m.x.i + b, by omega, by omega, by omega, by omega, ?_⟩
      rw [hidx]
      have e1 : m.x.i + a - m.x.i = a := by ring
      have e2 : m.x.i + b - m.x.i = b := by ring
      rw [e1, e2, hab]
  · have htri : (hmatrix_alloc m zero).triangular = false := by
      simp [hmatrix_alloc, h]
    have hsz : (hmatrix_alloc m zero).size = (m.x.n - m.x.i) * (m.y.n - m.y.i) := by
      simp [hmatrix_alloc, h]
    have hfx : (hmatrix_alloc m zero).x = m.x := by simp [hmatrix_alloc, h]
    have hfy : (hmatrix_alloc m zero).y = m.y := by simp [hmatrix_alloc, h]
    have hidx : ∀ x y, hmatrix_set_idx (hmatrix_alloc m zero) x y =
        (x - m.x.i) + (y - m.y.i) * (m.x.n - m.x.i) := by
      intro x y
      rw [hmatrix_set_idx, htri, hfx, hfy]
      simp
    refine ⟨fun hc => absurd hc h, fun _ => ⟨htri, hsz⟩, ?_, ?_, ?_⟩
    · intro x y hx1 hx2 hy1 hy2
      rw [hidx, hsz]
      exact ⟨rect_idx_nonneg (m.x.n - m.x.i) (x - m.x.i) (y - m.y.i)
          (by omega) (by omega) (by omega),
        rect_idx_lt (m.x.n - m.x.i) (m.y.n - m.y.i) (x - m.x.i) (y - m.y.i)
          (by omega) (by omega) (by omega) (by omega)⟩
    · intro x₁ y₁ x₂ y₂ h1 h2 h3 h4 h5 h6 h7 h8 heq
      rw [hidx, hidx] at heq
      have := rect_idx_inj (m.x.n - m.x.i) (x₁ - m.x.i) (y₁ - m.y.i)
        (x₂ - m.x.i) (y₂ - m.y.i) (by omega) (by omega) (by omega) (by omega) heq
      exact Or.inl ⟨by omega, by omega⟩
    · intro d hd hd'
      rw [hsz] at hd'
      obtain ⟨a, b, ha, ha', hb, hb', hab⟩ :=
        rect_idx_surj (m.x.n - m.x.i) (m.y.n - m.y.i) d (by omega) hd hd'
      refine ⟨m.x.i + a, m.y.i + b, by omega, by omega, by omega, by omega, ?_⟩
      rw [hidx]
      have e1 : m.x.i + a - m.x.i = a := by ring
      have e2 : m.y.i + b - m.y.i = b := by ring
      rw [e1, e2, hab]

/-- Witness for C2 at a concrete rectangular configuration
(x-range `[0,2)`, y-range `[1,3)`). -/
theorem C2_alloc_size_and_packing_bijection_witness :
    (hmatrix_alloc (⟨3, ⟨0, 2⟩, ⟨1, 3⟩, true, 0, fun _ => 0⟩ : HMatrix Int) 0).size = 4 := by
  have h := C2_alloc_size_and_packing_bijection Int
    ⟨3, ⟨0, 2⟩, ⟨1, 3⟩, true, 0, fun _ => 0⟩
    (hmatrix_alloc (⟨3, ⟨0, 2⟩, ⟨1, 3⟩, true, 0, fun _ => 0⟩ : HMatrix Int) 0) 0
    rfl (by norm_num) (by norm_num)
  have h2 := h.2.1 (by norm_num)
  exact h2.2

/-! ## Helper lemmas: the compute loop -/

theorem foldl_flatMap {β γ δ : Type} (f : δ → γ → δ) (g : β → List γ) :
    ∀ (l : List β) (b : δ),
      (l.flatMap g).foldl f b = l.foldl (fun acc a => (g a).foldl f acc) b := by
  intro l
  induction l with
  | nil => intro b; rfl
  | cons a l ih =>
    intro b
    rw [List.flatMap_cons, List.foldl_append, List.foldl_cons, ih]

theorem foldl_flatMap_map {β γ δ ε : Type} (f : δ → ε → δ) (g : β → γ → ε) (l2 : List γ) :
    ∀ (l1 : List β) (b : δ),
      (l1.flatMap (fun i => l2.map (g i))).foldl f b =
      l1.foldl (fun acc i => l2.foldl (fun acc2 j => f acc2 (g i j)) acc) b := by
  intro l1
  induction l1 with
  | nil => intro b; rfl
  | cons a l ih =>
    intro b
    rw [List.flatMap_cons, List.foldl_append, List.foldl_map, ih, List.foldl_cons]

theorem compute_step_x (μ : Int → Int → α) (m : HMatrix α) (p : Int × Int) :
    (compute_step μ m p).x = m.x := by
  unfold compute_step hmatrix_set
  split <;> rfl

theorem compute_step_y (μ : Int → Int → α) (m : HMatrix α) (p : Int × Int) :
    (compute_step μ m p).y = m.y := by
  unfold compute_step hmatrix_set
  split <;> rfl

theorem compute_step_triangular (μ : Int → Int → α) (m : HMatrix α) (p : Int × Int) :
    (compute_step μ m p).triangular = m.triangular := by
  unfold compute_step hmatrix_set
  split <;> rfl

theorem hmatrix_compute_eq_foldl (m : HMatrix α) (μ : Int → Int → α) :
    hmatrix_compute m μ = (all_pairs m).foldl (compute_step μ) m := by
  unfold hmatrix_compute all_pairs
  exact (foldl_flatMap_map (compute_step μ)
    (fun (i : Nat) (j : Nat) => ((i : Int) + m.x.i, (j : Int) + m.y.i))
    (List.range (m.y.n - m.y.i).toNat) (List.range (m.x.n - m.x.i).toNat) m).symm

theorem fold_fields (μ : Int → Int → α) :
    ∀ (l : List (Int × Int)) (m : HMatrix α),
      (l.foldl (compute_step μ) m).x = m.x ∧
      (l.foldl (compute_step μ) m).y = m.y ∧
      (l.foldl (compute_step μ) m).triangular = m.triangular := by
  intro l
  induction l with
  | nil => intro m; exact ⟨rfl, rfl, rfl⟩
  | cons p l ih =>
    intro m
    rw [List.foldl_cons]
    refine ⟨?_, ?_, ?_⟩
    · rw [(ih (compute_step μ m p)).1, compute_step_x]
    · rw [(ih (compute_step μ m p)).2.1, compute_step_y]
    · rw [(ih (compute_step μ m p)).2.2, compute_step_triangular]

theorem fold_values_untouched (μ : Int → Int → α) :
    ∀ (l : List (Int × Int)) (m : HMatrix α) (I : Int),
      (∀ p ∈ l, (m.triangular = true ∧ p.2 > p.1) ∨ hmatrix_set_idx m p.1 p.2 ≠ I) →
      (l.foldl (compute_step μ) m).values I = m.values I := by
  intro l
  induction l with
  | nil => intro m I _; rfl
  | cons p l ih =>
    intro m I h
    rw [List.foldl_cons]
    by_cases hskip : m.triangular = true ∧ p.2 > p.1
    · have hstep : compute_step μ m p = m := by
        unfold compute_step
        rw [if_pos hskip]
      rw [hstep]
      exact ih m I (fun q hq => h q (List.mem_cons_of_mem p hq))
    · have hstep : compute_step μ m p = hmatrix_set m p.1 p.2 (μ p.1 p.2) := by
        unfold compute_step
        rw [if_neg hskip]
      rw [hstep]
      have hne : hmatrix_set_idx m p.1 p.2 ≠ I :=
        (h p (List.mem_cons_self p l)).resolve_left hskip
      have hrest : (l.foldl (compute_step μ) (hmatrix_set m p.1 p.2 (μ p.1 p.2))).values I =
          (hmatrix_set m p.1 p.2 (μ p.1 p.2)).values I :=
        ih (hmatrix_set m p.1 p.2 (μ p.1 p.2)) I
          (fun q hq => h q (List.mem_cons_of_mem p hq))
      rw [hrest]
      simp [hmatrix_set, Ne.symm hne]

theorem fold_hits (μ : Int → Int → α) :
    ∀ (l : List (Int × Int)) (m : HMatrix α) (p : Int × Int),
      p ∈ l →
      ¬(m.triangular = true ∧ p.2 > p.1) →
      (∀ q ∈ l, (m.triangular = true ∧ q.2 > q.1) ∨
          hmatrix_set_idx m q.1 q.2 ≠ hmatrix_set_idx m p.1 p.2 ∨ q = p) →
      (l.foldl (compute_step μ) m).values (hmatrix_set_idx m p.1 p.2) = μ p.1 p.2 := by
  intro l
  induction l with
  | nil => intro m p hp; exact absurd hp (List.not_mem_nil p)
  | cons q l ih =>
    intro m p hp hns h
    rw [List.foldl_cons]
    by_cases hqp : q = p
    · subst hqp
      have hstep : compute_step μ m q = hmatrix_set m q.1 q.2 (μ q.1 q.2) := by
        unfold compute_step
        rw [if_neg hns]
      rw [hstep]
      by_cases hmem : q ∈ l
      · exact ih (hmatrix_set m q.1 q.2 (μ q.1 q.2)) q hmem hns
          (fun r hr => h r (List.mem_cons_of_mem q hr))
      · have huntouched := fold_values_untouched μ l
          (hmatrix_set m q.1 q.2 (μ q.1 q.2)) (hmatrix_set_idx m q.1 q.2)
          (fun r hr => by
            rcases h r (List.mem_cons_of_mem q hr) with hs | hne | heqr
            · exact Or.inl hs
            · exact Or.inr hne
            · exact absurd (heqr ▸ hr) hmem)
        rw [huntouched]
        simp [hmatrix_set]
    · have hpl : p ∈ l := by
        rcases List.mem_cons.mp hp with he | hl
        · exact absurd he.symm hqp
        · exact hl
      by_cases hskip : m.triangular = true ∧ q.2 > q.1
      · have hstep : compute_step μ m q = m := by
          unfold compute_step
          rw [if_pos hskip]
        rw [hstep]
        exact ih m p hpl hns (fun r hr => h r (List.mem_cons_of_mem q hr))
      · have hstep : compute_step μ m q = hmatrix_set m q.1 q.2 (μ q.1 q.2) := by
          unfold compute_step
          rw [if_neg hskip]
        rw [hstep]
        exact ih (hmatrix_set m q.1 q.2 (μ q.1 q.2)) p hpl hns
          (fun r hr => h r (List.mem_cons_of_mem q hr))

theorem get_idx_eq_set_idx (m : HMatrix α) (h : m.triangular = true → m.x.i = m.y.i)
    (x y : Int) : hmatrix_get_idx m x y = hmatrix_set_idx m x y := by
  by_cases ht : m.triangular = true
  · simp [hmatrix_get_idx, hmatrix_set_idx, ht, h ht]
  · simp [hmatrix_get_idx, hmatrix_set_idx, ht]

theorem set_idx_tri_eq (m : HMatrix α) (ht : m.triangular = true)
    (hxi : m.x.i = m.y.i) (x y : Int) :
    hmatrix_set_idx m x y = tri_idx (m.x.n - m.x.i) (x - m.x.i) (y - m.x.i) := by
  simp [hmatrix_set_idx, ht, ← hxi]

theorem set_idx_rect_eq (m : HMatrix α) (ht : ¬m.triangular = true) (x y : Int) :
    hmatrix_set_idx m x y = (x - m.x.i) + (y - m.y.i) * (m.x.n - m.x.i) := by
  simp [hmatrix_set_idx, ht]

theorem mem_all_pairs (m : HMatrix α) (px py : Int) :
    (px, py) ∈ all_pairs m ↔
      (m.x.i ≤ px ∧ px < m.x.n ∧ m.y.i ≤ py ∧ py < m.y.n) := by
  unfold all_pairs
  simp only [List.mem_flatMap, List.mem_map, List.mem_range]
  constructor
  · rintro ⟨i, hi, j, hj, he⟩
    obtain ⟨he1, he2⟩ := Prod.mk.injEq .. ▸ he
    omega
  · rintro ⟨h1, h2, h3, h4⟩
    refine ⟨(px - m.x.i).toNat, by omega, (py - m.y.i).toNat, by omega, ?_⟩
    have e1 : ((px - m.x.i).toNat : Int) + m.x.i = px := by omega
    have e2 : ((py - m.y.i).toNat : Int) + m.y.i = py := by omega
    rw [e1, e2]

theorem foldl_list_invariant {β γ : Type} (P : γ → Prop) (step : List γ → β → List γ)
    (hstep : ∀ acc b, (∀ q ∈ acc, P q) → ∀ p ∈ step acc b, P p) :
    ∀ (l : List β) (init : List γ), (∀ q ∈ init, P q) → ∀ p ∈ l.foldl step init, P p := by
  intro l
  induction l with
  | nil => intro init h p hp; exact h p hp
  | cons a l ih => intro init h p hp; exact ih (step init a) (hstep init a h) p hp

/-! ## Claim C3 -/

/-- Claim C3: after `hmatrix_compute(m, s, measure)`, every pair `(xi, yi)`
with `xi ∈ [x.i, x.n)` and `yi ∈ [y.i, y.n)` — restricted, when triangular,
to `yi ≤ xi`, the diagonal included — holds `measure(s[xi], s[yi])` (the
abstract `μ xi yi`), and in triangular mode no pair with `yi > xi` is ever
passed to the measure.  The well-formedness hypothesis (triangular implies
coinciding ranges) is exactly what `hmatrix_alloc` establishes (claim C2). -/
theorem C3_compute_completeness (α : Type) (m : HMatrix α) (μ : Int → Int → α)
    (hwf : m.triangular = true → m.x.i = m.y.i ∧ m.x.n = m.y.n) :
    (∀ xi yi, m.x.i ≤ xi → xi < m.x.n → m.y.i ≤ yi → yi < m.y.n →
      (m.triangular = true → yi ≤ xi) →
      hmatrix_get (hmatrix_compute m μ) xi yi = μ xi yi) ∧
    (m.triangular = true → ∀ p ∈ compute_evaluated m, p.2 ≤ p.1) := by
  constructor
  · intro xi yi h1 h2 h3 h4 h5
    rw [hmatrix_compute_eq_foldl]
    unfold hmatrix_get
    have hf := fold_fields μ (all_pairs m) m
    have hgid : hmatrix_get_idx ((all_pairs m).foldl (compute_step μ) m) xi yi
        = hmatrix_get_idx m xi yi := by
      unfold hmatrix_get_idx
      rw [hf.1, hf.2.1, hf.2.2]
    rw [hgid, get_idx_eq_set_idx m (fun ht => (hwf ht).1)]
    have hmem : ((xi, yi) : Int × Int) ∈ all_pairs m :=
      (mem_all_pairs m xi yi).mpr ⟨h1, h2, h3, h4⟩
    have hns : ¬(m.triangular = true ∧ ((xi, yi) : Int × Int).2 > ((xi, yi) : Int × Int).1) := by
      rintro ⟨ht, hgt⟩
      have := h5 ht
      simp only at hgt
      omega
    have huniq : ∀ q ∈ all_pairs m, (m.triangular = true ∧ q.2 > q.1) ∨
        hmatrix_set_idx m q.1 q.2 ≠
          hmatrix_set_idx m ((xi, yi) : Int × Int).1 ((xi, yi) : Int × Int).2 ∨
        q = (xi, yi) := by
      rintro ⟨qa, qb⟩ hq
      obtain ⟨hq1, hq2, hq3, hq4⟩ := (mem_all_pairs m qa qb).mp hq
      simp only
      by_cases ht : m.triangular = true
      · by_cases hgt : qb > qa
        · exact Or.inl ⟨ht, hgt⟩
        · by_cases hidx : hmatrix_set_idx m qa qb = hmatrix_set_idx m xi yi
          · obtain ⟨hxi_eq, hnn⟩ := hwf ht
            rw [set_idx_tri_eq m ht hxi_eq qa qb, set_idx_tri_eq m ht hxi_eq xi yi] at hidx
            have hb := tri_idx_inj_abs (m.x.n - m.x.i) (qa - m.x.i) (qb - m.x.i)
              (xi - m.x.i) (yi - m.x.i)
              (by omega) (by omega) (by omega) (by omega)
              (by omega) (by omega) (by omega) (by omega) hidx
            have hyx := h5 ht
            have heq : qa = xi ∧ qb = yi := by
              rcases hb with ⟨e1, e2⟩ | ⟨e1, e2⟩ <;> constructor <;> omega
            exact Or.inr (Or.inr (by rw [heq.1, heq.2]))
          · exact Or.inr (Or.inl hidx)
      · by_cases hidx : hmatrix_set_idx m qa qb = hmatrix_set_idx m xi yi
        · rw [set_idx_rect_eq m ht qa qb, set_idx_rect_eq m ht xi yi] at hidx
          have hb := rect_idx_inj (m.x.n - m.x.i) (qa - m.x.i) (qb - m.y.i)
            (xi - m.x.i) (yi - m.y.i) (by omega) (by omega) (by omega) (by omega) hidx
          have heq : qa = xi ∧ qb = yi := ⟨by omega, by omega⟩
          exact Or.inr (Or.inr (by rw [heq.1, heq.2]))
        · exact Or.inr (Or.inl hidx)
    exact fold_hits μ (all_pairs m) m (xi, yi) hmem hns huniq
  · intro ht p hp
    unfold compute_evaluated at hp
    refine foldl_list_invariant (fun q => q.2 ≤ q.1) _ ?_ _ [] (by simp) p hp
    intro acc i hacc q hq
    refine foldl_list_invariant (fun r => r.2 ≤ r.1) _ ?_ _ acc hacc q hq
    intro acc2 j hacc2 r hr
    by_cases hc : m.triangular = true ∧ ((j : Int) + m.y.i) > ((i : Int) + m.x.i)
    · rw [if_pos hc] at hr
      exact hacc2 r hr
    · rw [if_neg hc] at hr
      rcases List.mem_append.mp hr with hm | hm
      · exact hacc2 r hm
      · have : r = (((i : Int) + m.x.i, (j : Int) + m.y.i) : Int × Int) := by
          simpa using hm
        subst this
        simp only
        rw [not_and] at hc
        have := hc ht
        omega

/-- Witness for C3 at a concrete triangular 2×2 matrix and
`μ a b = 10·a + b`: the pair `(1, 0)` holds `μ 1 0 = 10`. -/
theorem C3_compute_completeness_witness :
    hmatrix_get
      (hmatrix_compute (⟨2, ⟨0, 2⟩, ⟨0, 2⟩, true, 3, fun _ => 0⟩ : HMatrix Int)
        (fun a b => 10 * a + b)) 1 0 = 10 :=
  (C3_compute_completeness Int ⟨2, ⟨0, 2⟩, ⟨0, 2⟩, true, 3, fun _ => 0⟩
      (fun a b => 10 * a + b) (fun _ => ⟨rfl, rfl⟩)).1 1 0
    (by norm_num) (by norm_num) (by norm_num) (by norm_num) (fun _ => by norm_num)

/-! ## Claim C4 -/

theorem parse_range_eq (r : Range) (str ls rs : List Char) (n : Int)
    (hne : ¬str = []) (hsc : splitColon str = some (ls, rs)) :
    parse_range r str n =
      (if range_bad (parse_range_pre r ls rs n).1 n then (⟨0, n⟩, true)
       else ((parse_range_pre r ls rs n).1, (parse_range_pre r ls rs n).2)) := by
  unfold parse_range
  rw [if_neg hne, hsc]

/-- Claim C4: `parse_range` applied to the default range `(0, N)` satisfies
the spec's table: `""` gives `(0, N)`; `":"` gives `(0, N)`; `"3:"` gives
`(3, N)`; `":5"` gives `(0, 5)`; `"2:-1"` with `N = 10` gives `(2, 9)`; and
`"7:3"` emits an error and gives `(0, N)`.  The rows with a parsed bound
carry the implicit side condition that the bound fits the batch size
(otherwise the sanity check of hmatrix.c:124 itself rejects the range). -/
theorem C4_parse_range_table :
    (∀ n : Int, parse_range ⟨0, n⟩ [] n = (⟨0, n⟩, false)) ∧
    (∀ n : Int, 1 ≤ n → parse_range ⟨0, n⟩ [':'] n = (⟨0, n⟩, false)) ∧
    (∀ n : Int, 4 ≤ n → parse_range ⟨0, n⟩ ['3', ':'] n = (⟨3, n⟩, false)) ∧
    (∀ n : Int, 5 ≤ n → parse_range ⟨0, n⟩ [':', '5'] n = (⟨0, 5⟩, false)) ∧
    parse_range ⟨0, 10⟩ ['2', ':', '-', '1'] 10 = (⟨2, 9⟩, false) ∧
    (∀ n : Int, parse_range ⟨0, n⟩ ['7', ':', '3'] n = (⟨0, n⟩, true)) := by
  refine ⟨fun n => rfl, ?_, ?_, ?_, by decide, ?_⟩
  · intro n hn
    rw [parse_range_eq ⟨0, n⟩ [':'] [] [] n (by simp) rfl]
    have hpre : parse_range_pre ⟨0, n⟩ [] [] n =
        (⟨0, if n < 0 then n + n else n⟩, false) := rfl
    rw [hpre, if_neg (by omega : ¬n < 0), if_neg (by simp [range_bad]; omega)]
  · intro n hn
    rw [parse_range_eq ⟨0, n⟩ ['3', ':'] ['3'] [] n (by simp) rfl]
    have hpre : parse_range_pre ⟨0, n⟩ ['3'] [] n =
        (⟨3, if n < 0 then n + n else n⟩, false) := rfl
    rw [hpre, if_neg (by omega : ¬n < 0), if_neg (by simp [range_bad]; omega)]
  · intro n hn
    rw [parse_range_eq ⟨0, n⟩ [':', '5'] [] ['5'] n (by simp) rfl]
    have hpre : parse_range_pre ⟨0, n⟩ [] ['5'] n = (⟨0, 5⟩, false) := rfl
    rw [hpre, if_neg (by simp [range_bad]; omega)]
  · intro n
    rw [parse_range_eq ⟨0, n⟩ ['7', ':', '3'] ['7'] ['3'] n (by simp) rfl]
    have hpre : parse_range_pre ⟨0, n⟩ ['7'] ['3'] n = (⟨7, 3⟩, false) := rfl
    rw [hpre, if_pos (by simp [range_bad])]

/-- Witness for C4 at `N = 10`. -/
theorem C4_parse_range_table_witness :
    parse_range ⟨0, 10⟩ [] 10 = (⟨0, 10⟩, false) ∧
    parse_range ⟨0, 10⟩ [':'] 10 = (⟨0, 10⟩, false) ∧
    parse_range ⟨0, 10⟩ ['3', ':'] 10 = (⟨3, 10⟩, false) ∧
    parse_range ⟨0, 10⟩ [':', '5'] 10 = (⟨0, 5⟩, false) ∧
    parse_range ⟨0, 10⟩ ['2', ':', '-', '1'] 10 = (⟨2, 9⟩, false) ∧
    parse_range ⟨0, 10⟩ ['7', ':', '3'] 10 = (⟨0, 10⟩, true) :=
  ⟨C4_parse_range_table.1 10,
   C4_parse_range_table.2.1 10 (by norm_num),
   C4_parse_range_table.2.2.1 10 (by norm_num),
   C4_parse_range_table.2.2.2.1 10 (by norm_num),
   C4_parse_range_table.2.2.2.2.1,
   C4_parse_range_table.2.2.2.2.2 10⟩

/-! ## Claim C5 -/

theorem parse_side_keeps_old (s : List Char) (dflt old : Int) :
    (parse_side s dflt old).2 = true → (parse_side s dflt old).1 = old := by
  unfold parse_side
  by_cases h1 : s = []
  · simp [h1]
  · by_cases h2 : (strtol s).2 = [] <;> simp [h1, h2]

/-- Counterexample to claim C5 as stated: on the input `"2x:5"` with `N = 10`
and the default range `(0, 10)`, `parse_range` encounters a parse failure on
the left side (`strtol` stops at `'x'`) and emits an error, yet the resulting
range is `(0, 5)` — not the full range `(0, 10)` the claim requires. -/
theorem C5_counterexample_parse_failure_not_full_range :
    parse_range ⟨0, 10⟩ ['2', 'x', ':', '5'] 10 = (⟨0, 5⟩, true) ∧ (⟨0, 5⟩ : Range) ≠ ⟨0, 10⟩ := by
  decide

/-- Claim C5 (amended): a spec without a colon emits an error and leaves the
range unchanged; a side that fails to parse emits an error but retains that
side's previous value (so the overall result need not be the full range);
and whenever the assembled candidate violates the sanity conditions
(`0 ≤ i`, `n ≤ N`, `i < n`), `parse_range` emits an error and the result is
the full range `(0, N)`. -/
theorem C5_parse_range_error_handling (r : Range) (str : List Char) (n : Int)
    (hne : ¬str = []) :
    (splitColon str = none → parse_range r str n = (r, true)) ∧
    (∀ ls rs, splitColon str = some (ls, rs) →
      (range_bad (parse_range_pre r ls rs n).1 n →
          parse_range r str n = (⟨0, n⟩, true)) ∧
      (¬range_bad (parse_range_pre r ls rs n).1 n →
          parse_range r str n = ((parse_range_pre r ls rs n).1, (parse_range_pre r ls rs n).2)) ∧
      ((parse_side ls 0 r.i).2 = true →
          (parse_range r str n).2 = true ∧ (parse_side ls 0 r.i).1 = r.i) ∧
      ((parse_side rs n r.n).2 = true →
          (parse_range r str n).2 = true ∧ (parse_side rs n r.n).1 = r.n)) := by
  constructor
  · intro hsc
    unfold parse_range
    rw [if_neg hne, hsc]
  · intro ls rs hsc
    have he := parse_range_eq r str ls rs n hne hsc
    have hflag : (parse_range_pre r ls rs n).2 =
        ((parse_side ls 0 r.i).2 || (parse_side rs n r.n).2) := rfl
    refine ⟨fun hbad => by rw [he, if_pos hbad], fun hok => by rw [he, if_neg hok], ?_, ?_⟩
    · intro herr
      refine ⟨?_, parse_side_keeps_old ls 0 r.i herr⟩
      rw [he]
      by_cases hbad : range_bad (parse_range_pre r ls rs n).1 n
      · rw [if_pos hbad]
      · rw [if_neg hbad]
        simp [hflag, herr]
    · intro herr
      refine ⟨?_, parse_side_keeps_old rs n r.n herr⟩
      rw [he]
      by_cases hbad : range_bad (parse_range_pre r ls rs n).1 n
      · rw [if_pos hbad]
      · rw [if_neg hbad]
        simp [hflag, herr]

/-- Witness for C5's amended theorem at the concrete input `"2x:5"`,
`N = 10`: the left side fails to parse, the error flag is set, and the left
bound keeps its previous value `0`. -/
theorem C5_parse_range_error_handling_witness :
    (parse_range ⟨0, 10⟩ ['2', 'x', ':', '5'] 10).2 = true ∧
    (parse_side ['2', 'x'] 0 0).1 = 0 :=
  ((C5_parse_range_error_handling ⟨0, 10⟩ ['2', 'x', ':', '5'] 10 (by simp)).2
    ['2', 'x'] ['5'] rfl).2.2.1 (by decide)

/-! ## Claim C6 -/

theorem rhe_intCast (k : ℤ) : rhe (k : ℚ) = (k : ℚ) := by
  unfold rhe
  rw [Int.floor_intCast]
  norm_num

theorem rhe_isInt (s : ℚ) : ∃ k : ℤ, rhe s = (k : ℚ) := by
  unfold rhe
  split_ifs <;> exact ⟨_, rfl⟩

theorem rhe_bounds (s : ℚ) : s - 1/2 ≤ rhe s ∧ rhe s ≤ s + 1/2 := by
  have h1 := Int.floor_le s
  have h2 := Int.lt_floor_add_one s
  unfold rhe
  split_ifs with ha hb hc <;> push_cast <;> constructor <;> linarith

theorem rhe_of_half_lt (s : ℚ) (h : 1/2 < s - ⌊s⌋) : rhe s = ((⌊s⌋ + 1 : ℤ) : ℚ) := by
  unfold rhe
  rw [if_neg (by linarith), if_pos h]

theorem int_log2_eq (q : ℚ) (e : ℤ) (hq : 0 < q)
    (h1 : (2 : ℚ) ^ e ≤ q) (h2 : q < (2 : ℚ) ^ (e + 1)) : Int.log 2 q = e := by
  have ha' : e ≤ Int.log 2 q := by
    apply (Int.zpow_le_iff_le_log (b := 2) (by norm_num) hq).mp
    convert h1 using 2
  have hb' : Int.log 2 q < e + 1 := by
    apply (Int.lt_zpow_iff_log_lt (b := 2) (by norm_num) hq).mp
    convert h2 using 2
  omega

theorem int_log2_bracket (q : ℚ) (hq : 0 < q) :
    (2 : ℚ) ^ Int.log 2 q ≤ q ∧ q < (2 : ℚ) ^ (Int.log 2 q + 1) := by
  have hcast : ((2 : ℕ) : ℚ) = (2 : ℚ) := by norm_num
  have h1 := Int.zpow_log_le_self (b := 2) (r := q) (by norm_num) hq
  have h2 := Int.lt_zpow_succ_log_self (b := 2) (by norm_num) q
  rw [hcast] at h1 h2
  exact ⟨h1, h2⟩

theorem rnd32_int_exact (n : ℤ) (h1 : 1 ≤ n) (h2 : n ≤ 2 ^ 24) : rnd32 ((n : ℤ) : ℚ) = n := by
  have hq : (0 : ℚ) < (n : ℚ) := by exact_mod_cast h1
  rw [rnd32, if_neg (by linarith)]
  by_cases h24 : n = 2 ^ 24
  · subst h24
    have he : Int.log 2 (((2 ^ 24 : ℤ) : ℚ)) = 24 :=
      int_log2_eq _ 24 (by positivity) (by norm_num) (by norm_num)
    rw [rnd32pos, he,
      show ((2 ^ 24 : ℤ) : ℚ) * (2 : ℚ) ^ ((23 : ℤ) - 24) = ((2 ^ 23 : ℤ) : ℚ) by norm_num,
      rhe_intCast]
    norm_num
  · set e := Int.log 2 ((n : ℤ) : ℚ) with he
    obtain ⟨hb1, hb2⟩ := int_log2_bracket ((n : ℤ) : ℚ) hq
    have he0 : 0 ≤ e := by
      apply (Int.zpow_le_iff_le_log (b := 2) (by norm_num) hq).mp
      have : ((2 : ℕ) : ℚ) ^ (0 : ℤ) = 1 := by norm_num
      rw [this]
      exact_mod_cast h1
    have he23 : e ≤ 23 := by
      by_contra hc
      push_neg at hc
      have h3 : (2 : ℚ) ^ (24 : ℤ) ≤ (2 : ℚ) ^ e := zpow_le_zpow_right₀ (by norm_num) (by omega)
      have h4 : ((2 ^ 24 : ℤ) : ℚ) ≤ (n : ℚ) := le_trans (by norm_num) (le_trans h3 hb1)
      have h5 : (2 : ℤ) ^ 24 ≤ n := by exact_mod_cast h4
      omega
    obtain ⟨k, hk⟩ : ∃ k : ℕ, (k : ℤ) = 23 - e := ⟨(23 - e).toNat, Int.toNat_of_nonneg (by omega)⟩
    rw [rnd32pos, ← he]
    have hsplit : ((n : ℤ) : ℚ) * (2 : ℚ) ^ (23 - e) = ((n * 2 ^ k : ℤ) : ℚ) := by
      rw [← hk]
      push_cast
      rw [zpow_natCast]
    rw [hsplit, rhe_intCast]
    have hfin : ((n * 2 ^ k : ℤ) : ℚ) * (2 : ℚ) ^ (e - 23) =
        (n : ℚ) * ((2 : ℚ) ^ (23 - e) * (2 : ℚ) ^ (e - 23)) := by
      rw [← hk]
      push_cast
      rw [zpow_natCast]
      ring
    rw [hfin, ← zpow_add₀ (by norm_num : (2 : ℚ) ≠ 0)]
    norm_num

theorem ceil_div_facts (yl blocks : Int) (hb1 : 1 ≤ blocks) (hb2 : blocks ≤ yl) :
    1 ≤ ceil_div yl blocks ∧ ceil_div yl blocks ≤ yl ∧ yl ≤ blocks * ceil_div yl blocks := by
  unfold ceil_div
  have hq := Int.emod_add_ediv (yl + blocks - 1) blocks
  have hr1 := Int.emod_nonneg (yl + blocks - 1) (show blocks ≠ 0 by omega)
  have hr2 := Int.emod_lt_of_pos (yl + blocks - 1) (show 0 < blocks by omega)
  set H := (yl + blocks - 1) / blocks with hH
  have h2 : yl ≤ blocks * H := by linarith
  have h1 : 1 ≤ H := by
    by_contra hc
    push_neg at hc
    have : blocks * H ≤ blocks * 0 := mul_le_mul_of_nonneg_left (by omega) (by omega)
    linarith
  refine ⟨h1, ?_, h2⟩
  by_contra hc
  push_neg at hc
  have hy : blocks * (yl + 1) ≤ blocks * H := mul_le_mul_of_nonneg_left (by omega) (by omega)
  have hyl : 1 * yl ≤ blocks * yl := mul_le_mul_of_nonneg_right hb1 (by omega)
  nlinarith [hy, hyl]

set_option maxHeartbeats 1600000 in
theorem fl_ceil_div_exact (a b : ℤ) (hb : 1 ≤ b) (hba : b ≤ a) (ha : a ≤ 2 ^ 24) :
    fl_ceil_div a b = ceil_div a b := by
  unfold fl_ceil_div
  rw [rnd32_int_exact a (by omega) ha, rnd32_int_exact b hb (by omega)]
  have hb0 : (0 : ℚ) < (b : ℚ) := by exact_mod_cast hb
  by_cases hdvd : b ∣ a
  · obtain ⟨c, hc⟩ := hdvd
    have hc1 : 1 ≤ c := by nlinarith [hc]
    have hc2 : c ≤ 2 ^ 24 := by nlinarith [hc]
    have hq : ((a : ℤ) : ℚ) / ((b : ℤ) : ℚ) = ((c : ℤ) : ℚ) := by
      rw [hc]
      push_cast
      field_simp
    rw [hq, rnd32_int_exact c hc1 hc2, Int.ceil_intCast]
    unfold ceil_div
    rw [hc, show b * c + b - 1 = (b - 1) + c * b by ring,
      Int.add_mul_ediv_right _ _ (by omega : b ≠ 0),
      Int.ediv_eq_zero_of_lt (by omega) (by omega)]
    omega
  · -- non-exact division: let r = a % b, n = a / b, q = a/b as a rational
    have hr := Int.emod_add_ediv a b
    have hr1 : 0 ≤ a % b := Int.emod_nonneg a (by omega)
    have hr2 : a % b < b := Int.emod_lt_of_pos a (by omega)
    have hrne : a % b ≠ 0 := fun hz => hdvd (Int.dvd_of_emod_eq_zero hz)
    set r := a % b with hrdef
    set n := a / b with hndef
    have hn1 : 1 ≤ n := by
      rw [hndef]
      rw [Int.le_ediv_iff_mul_le (by omega : (0 : ℤ) < b)]
      omega
    have hb2' : 2 ≤ b := by
      rcases lt_or_ge b 2 with h | h
      · exfalso
        have : b = 1 := by omega
        exact hdvd (this ▸ one_dvd a)
      · exact h
    have hn24 : n + 1 ≤ 2 ^ 24 := by
      have h2' : n * 2 ≤ n * b := by
        apply mul_le_mul_of_nonneg_left (by omega) (by omega)
      have hcomm : n * b = b * n := mul_comm n b
      omega
    set q : ℚ := ((a : ℤ) : ℚ) / ((b : ℤ) : ℚ) with hqdef
    have hq1 : (1 : ℚ) ≤ q := by
      rw [hqdef, le_div_iff₀ hb0]
      exact_mod_cast by omega
    have hq0 : (0 : ℚ) < q := by linarith
    have hqn : q - (n : ℚ) = (r : ℚ) / (b : ℚ) := by
      rw [hqdef]
      field_simp
      exact_mod_cast by omega
    have hqgt : (n : ℚ) < q := by
      have : (0 : ℚ) < (r : ℚ) / (b : ℚ) := by
        apply div_pos _ hb0
        exact_mod_cast by omega
      linarith
    have hqlt : q < (n : ℚ) + 1 := by
      have : (r : ℚ) / (b : ℚ) < 1 := by
        rw [div_lt_one hb0]
        exact_mod_cast hr2
      linarith
    -- exponent bracketing
    set e := Int.log 2 q with hedef
    obtain ⟨hbr1, hbr2⟩ := int_log2_bracket q hq0
    have he0 : 0 ≤ e := by
      apply (Int.zpow_le_iff_le_log (b := 2) (by norm_num) hq0).mp
      have : ((2 : ℕ) : ℚ) ^ (0 : ℤ) = 1 := by norm_num
      rw [this]
      exact hq1
    have he23 : e ≤ 23 := by
      by_contra hc
      push_neg at hc
      have h3 : (2 : ℚ) ^ (24 : ℤ) ≤ (2 : ℚ) ^ e := zpow_le_zpow_right₀ (by norm_num) (by omega)
      have h4 : (2 : ℚ) ^ (24 : ℤ) ≤ q := le_trans h3 hbr1
      have h5 : ((2 ^ 24 : ℤ) : ℚ) ≤ q := le_trans (by norm_num) h4
      have h6 : ((2 ^ 24 : ℤ) : ℚ) < (n : ℚ) + 1 := lt_of_le_of_lt h5 hqlt
      have h7 : (2 : ℤ) ^ 24 < n + 1 := by exact_mod_cast h6
      omega
    obtain ⟨k, hk⟩ : ∃ k : ℕ, (k : ℤ) = 23 - e := ⟨(23 - e).toNat, Int.toNat_of_nonneg (by omega)⟩
    -- P = 2^(23-e) is an integer power of two; E = 2^e
    set P : ℚ := (2 : ℚ) ^ (23 - e) with hPdef
    have hPint : P = ((2 ^ k : ℤ) : ℚ) := by
      rw [hPdef, ← hk]
      push_cast
      rw [zpow_natCast]
    have hP0 : (0 : ℚ) < P := by
      rw [hPdef]
      positivity
    set E : ℚ := (2 : ℚ) ^ e with hEdef
    have hE0 : (0 : ℚ) < E := by
      rw [hEdef]
      positivity
    have hEP : E * P = (2 : ℚ) ^ (23 : ℤ) := by
      rw [hEdef, hPdef, ← zpow_add₀ (by norm_num : (2 : ℚ) ≠ 0)]
      norm_num
    have hbE : (b : ℚ) * E ≤ (a : ℚ) := by
      have : E ≤ q := hbr1
      rw [hqdef] at this
      calc (b : ℚ) * E ≤ (b : ℚ) * (((a : ℤ) : ℚ) / ((b : ℤ) : ℚ)) := by
            apply mul_le_mul_of_nonneg_left this (by positivity)
        _ = (a : ℚ) := by field_simp
    have ha24 : (a : ℚ) ≤ 2 * (E * P) := by
      rw [hEP]
      have : ((a : ℤ) : ℚ) ≤ ((2 ^ 24 : ℤ) : ℚ) := by exact_mod_cast ha
      calc (a : ℚ) ≤ ((2 ^ 24 : ℤ) : ℚ) := this
        _ = 2 * (2 : ℚ) ^ (23 : ℤ) := by norm_num
    have hb2P : (b : ℚ) ≤ 2 * P := by
      have h1' : (b : ℚ) * E ≤ 2 * P * E := by
        calc (b : ℚ) * E ≤ (a : ℚ) := hbE
          _ ≤ 2 * (E * P) := ha24
          _ = 2 * P * E := by ring
      exact le_of_mul_le_mul_right h1' hE0
    -- the scaled significand s and its integer lower neighbour N
    set s : ℚ := q * P with hsdef
    set N : ℤ := n * 2 ^ k with hNdef
    have hsN : s - (N : ℚ) = ((r : ℚ) / (b : ℚ)) * P := by
      rw [hsdef, hNdef, ← hqn]
      push_cast
      rw [hPint]
      push_cast
      ring
    have hr1' : (1 : ℚ) ≤ (r : ℚ) := by exact_mod_cast by omega
    -- s - N ≥ 1/2, the tie being excluded by a ≤ 2^24
    have hhalf : (1 : ℚ) / 2 ≤ s - (N : ℚ) := by
      rw [hsN]
      have h1' : (1 : ℚ) / (b : ℚ) * P ≤ (r : ℚ) / (b : ℚ) * P :=
        mul_le_mul_of_nonneg_right ((div_le_div_iff_of_pos_right hb0).mpr hr1') (le_of_lt hP0)
      have h2' : (1 : ℚ) / 2 ≤ (1 : ℚ) / (b : ℚ) * P := by
        rw [div_mul_eq_mul_div, one_mul, le_div_iff₀ hb0]
        linarith [hb2P]
      linarith
    have hab : (r : ℚ) + (b : ℚ) * (n : ℚ) = (a : ℚ) := by exact_mod_cast hr
    have htie : s - (N : ℚ) ≠ 1 / 2 := by
      intro htie
      rw [hsN] at htie
      have hb_eq : (b : ℚ) = 2 * ((r : ℚ) * P) := by
        field_simp at htie
        linarith
      have hr_eq : (r : ℚ) = 1 := by
        by_contra hrne'
        have h2r : (2 : ℚ) ≤ (r : ℚ) := by
          have hlt : (1 : ℤ) < r := by
            rcases lt_or_eq_of_le (show (1 : ℤ) ≤ r by omega) with h | h
            · exact h
            · exact absurd (show (r : ℚ) = 1 by exact_mod_cast h.symm) hrne'
          exact_mod_cast hlt
        nlinarith [hP0, hb2P]
      obtain ⟨j, hj⟩ : ∃ j : ℕ, (j : ℤ) = e := ⟨e.toNat, Int.toNat_of_nonneg he0⟩
      have hEint : E = ((2 ^ j : ℤ) : ℚ) := by
        rw [hEdef, ← hj]
        push_cast
        rw [zpow_natCast]
      have hnE : E ≤ (n : ℚ) := by
        have h1' : E < (n : ℚ) + 1 := lt_of_le_of_lt hbr1 hqlt
        rw [hEint] at h1' ⊢
        have h2' : (2 ^ j : ℤ) < n + 1 := by exact_mod_cast h1'
        exact_mod_cast (by omega : (2 ^ j : ℤ) ≤ n)
      have hmul : E * (2 * P) ≤ (n : ℚ) * (2 * P) :=
        mul_le_mul_of_nonneg_right hnE (by linarith)
      have hbig : (2 : ℚ) ^ (23 : ℤ) * 2 + 1 ≤ (a : ℚ) := by
        rw [← hab, hr_eq, hb_eq]
        nlinarith [hEP, hmul]
      have hsmall : (a : ℚ) ≤ ((2 ^ 24 : ℤ) : ℚ) := by exact_mod_cast ha
      have : ((2 ^ 24 : ℤ) : ℚ) = (2 : ℚ) ^ (23 : ℤ) * 2 := by norm_num
      linarith
    have hhalf' : (1 : ℚ) / 2 < s - (N : ℚ) := lt_of_le_of_ne hhalf (Ne.symm htie)
    have hs_upper : s < ((N + 2 ^ k : ℤ) : ℚ) := by
      have h1' : q * P < ((n : ℚ) + 1) * P := mul_lt_mul_of_pos_right hqlt hP0
      rw [hsdef]
      calc q * P < ((n : ℚ) + 1) * P := h1'
        _ = ((N + 2 ^ k : ℤ) : ℚ) := by
            rw [hNdef, hPint]
            push_cast
            ring
    -- the rounded significand is an integer in [N+1, N+2^k]
    obtain ⟨K, hK⟩ := rhe_isInt s
    have hrb := rhe_bounds s
    have hK_lo : N + 1 ≤ K := by
      rcases lt_or_ge s ((N : ℚ) + 1) with hcase | hcase
      · have hfl : ⌊s⌋ = N := by
          rw [Int.floor_eq_iff]
          constructor
          · linarith
          · exact_mod_cast hcase
        have hh := rhe_of_half_lt s (by rw [hfl]; linarith)
        rw [hfl] at hh
        have hKeq : K = N + 1 := by
          have h' : (K : ℚ) = ((N + 1 : ℤ) : ℚ) := by rw [← hK, hh]
          exact_mod_cast h'
        omega
      · have h1' : (N : ℚ) + 1 / 2 ≤ (K : ℚ) := by
          rw [← hK]
          linarith [hrb.1]
        have h2' : (N : ℚ) < (K : ℚ) := by linarith
        exact_mod_cast (by exact_mod_cast Int.lt_iff_add_one_le.mp (by exact_mod_cast h2'))
    have hK_hi : K ≤ N + 2 ^ k := by
      have h1' : (K : ℚ) ≤ s + 1 / 2 := by rw [← hK]; exact hrb.2
      have h2' : (K : ℚ) < ((N + 2 ^ k : ℤ) : ℚ) + 1 / 2 := by linarith
      have h3' : (K : ℚ) < ((N + 2 ^ k : ℤ) : ℚ) + 1 := by linarith
      exact_mod_cast Int.lt_add_one_iff.mp (by exact_mod_cast h3')
    -- hence rnd32 q lies in (n, n+1] and its ceiling is n+1
    have hIP : P * (2 : ℚ) ^ (e - 23) = 1 := by
      rw [hPdef, ← zpow_add₀ (by norm_num : (2 : ℚ) ≠ 0)]
      norm_num
    have hI0 : (0 : ℚ) < (2 : ℚ) ^ (e - 23) := by positivity
    have hrnd : rnd32 q = (K : ℚ) * (2 : ℚ) ^ (e - 23) := by
      rw [rnd32, if_neg (by linarith), rnd32pos, ← hedef, ← hPdef, ← hsdef, hK]
    have hlo : (n : ℚ) < rnd32 q := by
      rw [hrnd]
      have h1' : ((N + 1 : ℤ) : ℚ) * (2 : ℚ) ^ (e - 23) ≤ (K : ℚ) * (2 : ℚ) ^ (e - 23) := by
        apply mul_le_mul_of_nonneg_right _ (le_of_lt hI0)
        exact_mod_cast hK_lo
      have h2' : ((N + 1 : ℤ) : ℚ) * (2 : ℚ) ^ (e - 23) =
          (n : ℚ) * (P * (2 : ℚ) ^ (e - 23)) + (2 : ℚ) ^ (e - 23) := by
        rw [hPint, hNdef]
        push_cast
        ring
      rw [h2', hIP] at h1'
      nlinarith [hI0]
    have hhi : rnd32 q ≤ (n : ℚ) + 1 := by
      rw [hrnd]
      have h1' : (K : ℚ) * (2 : ℚ) ^ (e - 23) ≤ ((N + 2 ^ k : ℤ) : ℚ) * (2 : ℚ) ^ (e - 23) := by
        apply mul_le_mul_of_nonneg_right _ (le_of_lt hI0)
        exact_mod_cast hK_hi
      have h2' : ((N + 2 ^ k : ℤ) : ℚ) * (2 : ℚ) ^ (e - 23) =
          ((n : ℚ) + 1) * (P * (2 : ℚ) ^ (e - 23)) := by
        rw [hPint, hNdef]
        push_cast
        ring
      rw [h2', hIP] at h1'
      linarith
    have hceil : ⌈rnd32 q⌉ = n + 1 := by
      rw [Int.ceil_eq_iff]
      constructor
      · push_cast
        linarith
      · push_cast
        linarith
    rw [hqdef] at hceil
    rw [hceil]
    unfold ceil_div
    rw [show a + b - 1 = (r - 1) + (n + 1) * b by rw [← hr]; ring,
      Int.add_mul_ediv_right _ _ (by omega : b ≠ 0),
      Int.ediv_eq_zero_of_lt (by omega) (by omega)]
    omega

theorem rnd32_pow24_succ : rnd32 (16777217 : ℚ) = 16777216 := by
  have hlog : Int.log 2 (16777217 : ℚ) = 24 :=
    int_log2_eq _ 24 (by norm_num) (by norm_num) (by norm_num)
  rw [rnd32, if_neg (by norm_num), rnd32pos, hlog,
    show (16777217 : ℚ) * (2 : ℚ) ^ ((23 : ℤ) - 24) = 16777217 / 2 by norm_num]
  have hfl : ⌊(16777217 / 2 : ℚ)⌋ = 8388608 := by
    rw [Int.floor_eq_iff]
    constructor <;> norm_num
  rw [rhe, hfl]
  norm_num

theorem fl_ceil_div_pow24_succ_one : fl_ceil_div 16777217 1 = 16777216 := by
  unfold fl_ceil_div
  rw [show ((16777217 : ℤ) : ℚ) = (16777217 : ℚ) by norm_num, rnd32_pow24_succ,
    rnd32_int_exact 1 (by norm_num) (by norm_num)]
  rw [show (16777216 : ℚ) / (((1 : ℤ) : ℚ)) = ((16777216 : ℤ) : ℚ) by norm_num,
    rnd32_int_exact 16777216 (by norm_num) (by norm_num)]
  rw [Int.ceil_intCast]

/-- Counterexample to claim C6 as stated: at the y-range `[0, 2^24 + 1)` with
`blocks = 1`, `index = 0`, the source's single-precision height computation
rounds `(float) 16777217` to `16777216` (round half to even), so
`hmatrix_split` passes all sanity checks and cuts the y-range to
`[0, 16777216)` — while the claim's `height = ⌈(y.n − y.i)/blocks⌉ =
16777217` requires the replacement `[0, min(2^24+1, 16777217)) =
[0, 2^24+1)`.  The produced block differs from the required one and the union
of the produced blocks misses the point `16777216` of the original y-range. -/
theorem C6_counterexample_float_height :
    (hmatrix_split (⟨16777217, ⟨0, 16777217⟩, ⟨0, 16777217⟩, true, 0,
        fun _ => (0 : Int)⟩ : HMatrix Int) 1 0).map (fun m' => m'.y) =
      some ⟨0, 16777216⟩ ∧
    (⟨0 + 0 * ceil_div (16777217 - 0) 1,
      min 16777217 (0 + (0 + 1) * ceil_div (16777217 - 0) 1)⟩ : Range) = ⟨0, 16777217⟩ ∧
    (⟨0, 16777216⟩ : Range) ≠ ⟨0, 16777217⟩ := by
  refine ⟨?_, by decide, by decide⟩
  simp only [hmatrix_split]
  rw [show (16777217 : Int) - 0 = 16777217 by norm_num, fl_ceil_div_pow24_succ_one,
    if_neg (by norm_num), if_neg (by norm_num), if_neg (by norm_num)]
  simp only [Option.map_some']
  norm_num

/-- Claim C6 (amended): for every y-range whose height `y.n − y.i` is at most
`2^24` — so that the source's single-precision height computation is exact
(`fl_ceil_div_exact`); above `2^24` the float rounding can shrink the height
and the blocks need not cover the y-range (`C6_counterexample_float_height`) —
and every `blocks` with `1 ≤ blocks ≤ y.n − y.i`, `hmatrix_split` with
`height = ⌈(y.n−y.i)/blocks⌉` replaces `y` by
`[y.i + index·height, min(y.n, y.i + (index+1)·height))` for each valid
`index ∈ [0, blocks)`; the produced y-ranges are pairwise disjoint and their
union is the original y-range; and `blocks ≤ 0`, `blocks` greater than the
y-height, a computed height `≤ 0`, or `index ∉ [0, blocks)` is fatal
(modelled as `none`). -/
theorem C6_split_blocks_disjoint_cover (α : Type) (m : HMatrix α) (blocks : Int)
    (hb1 : 1 ≤ blocks) (hb2 : blocks ≤ m.y.n - m.y.i)
    (hsmall : m.y.n - m.y.i ≤ 2 ^ 24) :
    (∀ index, 0 ≤ index → index < blocks →
      hmatrix_split m blocks index = some { m with y :=
        ⟨m.y.i + index * ceil_div (m.y.n - m.y.i) blocks,
         min m.y.n (m.y.i + (index + 1) * ceil_div (m.y.n - m.y.i) blocks)⟩ }) ∧
    (∀ k₁ k₂ t, 0 ≤ k₁ → k₁ < blocks → 0 ≤ k₂ → k₂ < blocks → k₁ ≠ k₂ →
      ¬((m.y.i + k₁ * ceil_div (m.y.n - m.y.i) blocks ≤ t ∧
          t < min m.y.n (m.y.i + (k₁ + 1) * ceil_div (m.y.n - m.y.i) blocks)) ∧
        (m.y.i + k₂ * ceil_div (m.y.n - m.y.i) blocks ≤ t ∧
          t < min m.y.n (m.y.i + (k₂ + 1) * ceil_div (m.y.n - m.y.i) blocks)))) ∧
    (∀ t, (m.y.i ≤ t ∧ t < m.y.n) ↔ ∃ k, 0 ≤ k ∧ k < blocks ∧
      m.y.i + k * ceil_div (m.y.n - m.y.i) blocks ≤ t ∧
      t < min m.y.n (m.y.i + (k + 1) * ceil_div (m.y.n - m.y.i) blocks)) ∧
    (∀ b i, b ≤ 0 ∨ b > m.y.n - m.y.i ∨ fl_ceil_div (m.y.n - m.y.i) b ≤ 0 ∨
        i < 0 ∨ i > b - 1 → hmatrix_split m b i = none) := by
  obtain ⟨hh1, hh3, hh2⟩ := ceil_div_facts (m.y.n - m.y.i) blocks hb1 hb2
  have hagree : fl_ceil_div (m.y.n - m.y.i) blocks = ceil_div (m.y.n - m.y.i) blocks :=
    fl_ceil_div_exact (m.y.n - m.y.i) blocks hb1 hb2 hsmall
  set H := ceil_div (m.y.n - m.y.i) blocks with hH
  have haux : ∀ k₁ k₂ t, 0 ≤ k₁ → k₁ < k₂ →
      ¬((m.y.i + k₁ * H ≤ t ∧ t < min m.y.n (m.y.i + (k₁ + 1) * H)) ∧
        (m.y.i + k₂ * H ≤ t ∧ t < min m.y.n (m.y.i + (k₂ + 1) * H))) := by
    rintro k₁ k₂ t hk1 hlt ⟨⟨ha1, ha2⟩, ⟨hb1', hb2'⟩⟩
    have h1 : t < m.y.i + (k₁ + 1) * H := lt_of_lt_of_le ha2 (min_le_right _ _)
    have h2 : (k₁ + 1) * H ≤ k₂ * H := mul_le_mul_of_nonneg_right (by omega) (by omega)
    linarith
  refine ⟨?_, ?_, ?_, ?_⟩
  · intro index hi1 hi2
    simp only [hmatrix_split]
    rw [hagree, if_neg (by omega), if_neg (by omega), if_neg (by omega)]
    have hmin : (if m.y.n > m.y.i + index * H + H then m.y.i + index * H + H else m.y.n)
        = min m.y.n (m.y.i + (index + 1) * H) := by
      have hexp : m.y.i + (index + 1) * H = m.y.i + index * H + H := by ring
      rw [hexp, min_def]
      split_ifs <;> omega
    rw [hmin]
  · intro k₁ k₂ t hk1 hk1' hk2 hk2' hne
    rcases lt_or_gt_of_ne hne with h | h
    · exact haux k₁ k₂ t hk1 h
    · intro hcontra
      exact haux k₂ k₁ t hk2 h ⟨hcontra.2, hcontra.1⟩
  · intro t
    constructor
    · rintro ⟨ht1, ht2⟩
      have hq := Int.emod_add_ediv (t - m.y.i) H
      have hr1 := Int.emod_nonneg (t - m.y.i) (show H ≠ 0 by omega)
      have hr2 := Int.emod_lt_of_pos (t - m.y.i) (show 0 < H by omega)
      refine ⟨(t - m.y.i) / H, Int.ediv_nonneg (by omega) (by omega), ?_, by linarith, ?_⟩
      · by_contra hc
        push_neg at hc
        have hm1 : blocks * H ≤ (t - m.y.i) / H * H :=
          mul_le_mul_of_nonneg_right hc (by omega)
        nlinarith [hm1, hq, hr1]
      · rw [lt_min_iff]
        refine ⟨ht2, ?_⟩
        nlinarith [hq, hr2]
    · rintro ⟨k, hk0, hkb, hm1, hm2⟩
      have h0 : 0 ≤ k * H := mul_nonneg hk0 (by omega)
      exact ⟨by linarith, lt_of_lt_of_le hm2 (min_le_left _ _)⟩
  · intro b i hdisj
    simp only [hmatrix_split]
    generalize hg : fl_ceil_div (m.y.n - m.y.i) b = Hb at hdisj ⊢
    split_ifs with c1 c2 c3
    · rfl
    · rfl
    · rfl
    · exfalso
      omega

/-- Witness for C6 at the concrete y-range `[0, 10)` with `blocks = 2`:
`split("2:1")` yields the y-range `[5, 10)`, and `blocks = 0` is fatal. -/
theorem C6_split_blocks_disjoint_cover_witness :
    hmatrix_split (⟨10, ⟨0, 10⟩, ⟨0, 10⟩, true, 0, fun _ => (0 : Int)⟩ : HMatrix Int) 2 1 =
      some { (⟨10, ⟨0, 10⟩, ⟨0, 10⟩, true, 0, fun _ => (0 : Int)⟩ : HMatrix Int) with
        y := ⟨0 + 1 * ceil_div (10 - 0) 2, min 10 (0 + (1 + 1) * ceil_div (10 - 0) 2)⟩ } ∧
    hmatrix_split (⟨10, ⟨0, 10⟩, ⟨0, 10⟩, true, 0, fun _ => (0 : Int)⟩ : HMatrix Int) 0 0 = none :=
  ⟨(C6_split_blocks_disjoint_cover Int ⟨10, ⟨0, 10⟩, ⟨0, 10⟩, true, 0, fun _ => (0 : Int)⟩ 2
      (by norm_num) (by norm_num) (by norm_num)).1 1 (by norm_num) (by norm_num),
   (C6_split_blocks_disjoint_cover Int ⟨10, ⟨0, 10⟩, ⟨0, 10⟩, true, 0, fun _ => (0 : Int)⟩ 2
      (by norm_num) (by norm_num) (by norm_num)).2.2.2 0 0 (by norm_num)⟩

/-! ## Claim C7 -/

theorem spec_wf_cons_ne (c : Char) (rest : List Char) (hc : ¬c = '%') :
    spec_wf (c :: rest) = spec_wf rest := by
  match rest with
  | [] => simp [spec_wf, hc]
  | [a] => simp [spec_wf, hc]
  | a :: b :: l => simp [spec_wf, hc]

theorem spec_denoted_cons_ne (c : Char) (rest : List Char) (hc : ¬c = '%') :
    spec_denoted (c :: rest) = c.toNat :: spec_denoted rest := by
  match rest with
  | [] => simp [spec_denoted, hc]
  | [a] => simp [spec_denoted, hc]
  | a :: b :: l => simp [spec_denoted, hc]

theorem delim_scan_cons_ne (c : Char) (rest : List Char) (hc : ¬c = '%') :
    delim_scan (c :: rest) = (delim_scan rest).map (fun l => c.toNat :: l) := by
  match rest with
  | [] => simp [delim_scan, hc]
  | [a] => simp [delim_scan, hc]
  | a :: b :: l => simp [delim_scan, hc]

theorem delim_scan_eq_spec_denoted :
    ∀ (n : Nat) (s : List Char), s.length ≤ n → spec_wf s = true →
      delim_scan s = some (spec_denoted s) := by
  intro n
  induction n with
  | zero =>
    intro s hl _
    match s with
    | [] => rfl
    | c :: rest => simp at hl
  | succ n ih =>
    intro s hl hwf
    match s with
    | [] => rfl
    | c :: rest =>
      by_cases hc : c = '%'
      · subst hc
        match rest with
        | [] => rfl
        | [c1] =>
          have hx : (hexVal c1).isSome = true := by simpa [spec_wf] using hwf
          obtain ⟨a, ha⟩ := Option.isSome_iff_exists.mp hx
          simp [delim_scan, spec_denoted, ha]
        | c1 :: c2 :: rest2 =>
          have hx : (hexVal c1).isSome = true ∧ (hexVal c2).isSome = true ∧
              spec_wf rest2 = true := by
            simpa [spec_wf, and_assoc] using hwf
          obtain ⟨a, ha⟩ := Option.isSome_iff_exists.mp hx.1
          obtain ⟨b, hb⟩ := Option.isSome_iff_exists.mp hx.2.1
          have hrec := ih rest2 (by simp at hl; omega) hx.2.2
          simp [delim_scan, spec_denoted, ha, hb, hrec]
      · have hwf' : spec_wf rest = true := by
          rw [spec_wf_cons_ne c rest hc] at hwf
          exact hwf
        have hrec := ih rest (by simp at hl; omega) hwf'
        rw [delim_scan_cons_ne c rest hc, spec_denoted_cons_ne c rest hc, hrec]
        rfl

/-- Counterexample to claim C7 as stated: the spec `"%4"` ends in a truncated
escape `%H` with a single hex digit, which the claim says flags nothing — but
`str_delim_set` builds the buffer `"0x4"` for `sscanf("%x")` and flags the
byte with value `4`.  (The byte `4` does not appear literally in the spec:
the two spec characters have byte values 37 and 52.) -/
theorem C7_counterexample_trailing_single_digit_escape :
    delim_flagged (str_delim_set ['%', '4']) 4 = true ∧
    ('%' : Char).toNat ≠ 4 ∧ ('4' : Char).toNat ≠ 4 := by
  exact ⟨rfl, by decide, by decide⟩

/-- Claim C7 (amended): after `str_delim_set(spec)` with a non-empty,
well-formed spec (`spec_wf`), a byte value is flagged iff the spec denotes
it (`spec_denoted`): it appears literally outside an escape, is denoted by a
two-hex-digit `%HH` escape, or is denoted by a trailing single-hex-digit
`%H` escape; a trailing bare `%` flags nothing; and `str_delim_set("")` is
equivalent to `str_delim_reset()`. -/
theorem C7_delim_set_characterization (s : List Char)
    (hne : ¬s = []) (hwf : spec_wf s = true) :
    (∀ b : Nat, delim_flagged (str_delim_set s) b = true ↔ b ∈ spec_denoted s) ∧
    str_delim_set [] = some str_delim_reset := by
  have hscan := delim_scan_eq_spec_denoted s.length s (le_refl _) hwf
  refine ⟨?_, rfl⟩
  intro b
  unfold str_delim_set delim_flagged
  rw [if_neg hne, hscan]
  simp

/-- Witness for C7's amended theorem at the spec `" %09"` (space and `%09`
tab escape): byte 9 (tab) is flagged, as is byte 32 (space). -/
theorem C7_delim_set_characterization_witness :
    delim_flagged (str_delim_set [' ', '%', '0', '9']) 9 = true ∧
    delim_flagged (str_delim_set [' ', '%', '0', '9']) 32 = true :=
  ⟨((C7_delim_set_characterization [' ', '%', '0', '9'] (by simp) (by decide)).1 9).mpr
      (by decide),
   ((C7_delim_set_characterization [' ', '%', '0', '9'] (by simp) (by decide)).1 32).mpr
      (by decide)⟩

/-! ## Claim C8 -/

/-- Claim C8: with space as the only delimiter, `str_symbolize` applied to
`"  foo  bar  "` yields exactly two tokens, and those token identities equal
the two produced from `"foo bar"` (each token being the hash of the word's
bytes; leading, trailing, and collapsed delimiter runs yield no token).  The
word hash is universally quantified, so the token identities agree for the
actual MurmurHash64B as well. -/
theorem C8_symbolize_collapse_idempotence (hash : List Nat → Nat) :
    str_symbolize (fun b => b = 32) hash
        [32, 32, 102, 111, 111, 32, 32, 98, 97, 114, 32, 32] =
      str_symbolize (fun b => b = 32) hash [102, 111, 111, 32, 98, 97, 114] ∧
    (str_symbolize (fun b => b = 32) hash
        [32, 32, 102, 111, 111, 32, 32, 98, 97, 114, 32, 32]).length = 2 ∧
    str_symbolize (fun b => b = 32) hash
        [32, 32, 102, 111, 111, 32, 32, 98, 97, 114, 32, 32] =
      [hash [102, 111, 111], hash [98, 97, 114]] := by
  have h1 : extract_words (find_dlm (fun b => b = 32)) []
      (collapse (fun b => b = 32) (find_dlm (fun b => b = 32))
        [32, 32, 102, 111, 111, 32, 32, 98, 97, 114, 32, 32]) =
      [[102, 111, 111], [98, 97, 114]] := by rfl
  have h2 : extract_words (find_dlm (fun b => b = 32)) []
      (collapse (fun b => b = 32) (find_dlm (fun b => b = 32))
        [102, 111, 111, 32, 98, 97, 114]) =
      [[102, 111, 111], [98, 97, 114]] := by rfl
  unfold str_symbolize
  rw [h1, h2]
  exact ⟨rfl, rfl, rfl⟩

/-! ## Claim C9 -/

/-- Claim C9: for strings of the same payload variant, `str_hash2` is
symmetric (the two Murmur hashes are combined with XOR); for mixed or
missing variants it warns and returns the sentinel `0`. -/
theorem C9_hash2_symmetric_and_sentinel (Hc Hs : List Nat → Nat) (x y : StrT) :
    (x.type = y.type → str_hash2 Hc Hs x y = str_hash2 Hc Hs y x) ∧
    ((x.type ≠ y.type ∨ x.payload = none ∨ y.payload = none) →
      str_hash2 Hc Hs x y = ⟨0, true⟩ ∧ str_hash2 Hc Hs y x = ⟨0, true⟩) := by
  rcases x with ⟨tx, px⟩
  rcases y with ⟨ty, py⟩
  cases tx <;> cases ty <;>
    rcases px with _ | pl <;> rcases py with _ | pl' <;>
      simp [str_hash2, Nat.xor_comm] <;>
        exact Nat.xor_comm _ _

/-- Witness for C9: a `char`/`sym` mismatch yields the warned sentinel, and
equal-variant hashing is symmetric at a concrete pair. -/
theorem C9_hash2_symmetric_and_sentinel_witness :
    str_hash2 (fun l => l.length) (fun l => l.length)
        ⟨.char, some [1]⟩ ⟨.sym, some [2]⟩ = ⟨0, true⟩ ∧
    str_hash2 (fun l => l.length) (fun l => l.length)
        ⟨.char, some [1]⟩ ⟨.char, some [2, 3]⟩ =
      str_hash2 (fun l => l.length) (fun l => l.length)
        ⟨.char, some [2, 3]⟩ ⟨.char, some [1]⟩ :=
  ⟨((C9_hash2_symmetric_and_sentinel (fun l => l.length) (fun l => l.length)
      ⟨.char, some [1]⟩ ⟨.sym, some [2]⟩).2 (Or.inl (by simp))).1,
   (C9_hash2_symmetric_and_sentinel (fun l => l.length) (fun l => l.length)
      ⟨.char, some [1]⟩ ⟨.char, some [2, 3]⟩).1 rfl⟩

/-! ## Claim C10 -/

/-- Claim C10 is contradicted by the code (`code_bug`): when the labels
`calloc` fails during `hmatrix_init` (here: `labelsOk = false` with a
one-string batch), the source emits a non-fatal `error(...)` and then
executes `return m` (hmatrix.c:58-61), handing the partially-initialized
object (labels `NULL`, the copy loop never run) back to the caller — the
spec requires that the failure be fatal and that no matrix be returned. -/
theorem C10_init_label_alloc_failure_returns_partial :
    hmatrix_init true false true (0 : Int) [((1 : Int), none)] =
      some ⟨1, ⟨0, 1⟩, ⟨0, 1⟩, true, none, some [none]⟩ ∧
    (hmatrix_init true false true (0 : Int) [((1 : Int), none)]).isSome = true := by
  exact ⟨rfl, rfl⟩

end Harry
